import Mathlib

/-!
# MPK container codec (`src/mpk.cpp`)

A shallow embedding of the packer (`main`, create branch) and the unpacker
(`main`, extract branch) of the MPK tool, together with the record layouts
`mpk::mpk_header` and `mpk::mpk_entry`.

Conventions of the embedding.

* A byte is a `Fin 256`; a file is the list of its bytes.
* Records are serialised field by field, little-endian, in declaration order.
  Both records have only naturally aligned fields, so the compiler inserts no
  padding between or after them.
* File positions (`ftell`, `fseek`) are natural numbers; where a statement
  needs a position to fit the C `long`, it says so.  The explicit 32-bit
  narrowings of the source (`entry_id = i`, the `uint32_t` loop counter of the
  unpacker) are modelled with `% 2 ^ 32`.
* The extract branch is embedded twice.  `extract` is the run on containers
  as the packer writes them: every file name field holds a NUL, stored sizes
  and offsets are below `2 ^ 63`, and a payload that is not empty starts
  within the container.  `unpack` is the run on any container:
  a name is read up to the first NUL wherever that is, `resize` throws from
  `2 ^ 63` on, and a seek that may be refused leaves the run undetermined.
  The two agree where `extract` applies (`unpack_eq_extract`,
  `unpack_create_eq_extract`).
* Paths of the members of one directory share their parent, so ordering them
  is ordering their file names, compared bytewise.
-/

namespace mpk

/-! ## Bytes and little-endian integers -/

abbrev Byte := Fin 256

/-- The `w` little-endian bytes of `n` (the object representation of an
unsigned integer of `w` bytes holding `n % 2 ^ (8 * w)`). -/
def toLE : Nat → Nat → List Byte
  | 0, _ => []
  | w + 1, n => Fin.ofNat (n % 256) :: toLE w (n / 256)

/-- The unsigned integer whose little-endian object representation is `bs`. -/
def ofLE : List Byte → Nat
  | [] => 0
  | b :: bs => b.val + 256 * ofLE bs

/-- A run of `n` zero bytes. -/
def zeros (n : Nat) : List Byte := List.replicate n 0

/-! ## Helpers that the source uses but does not define -/

/-- Modelled from the spec: `alignUp` is declared outside `src/`.  Section 4.4:
"given a current offset and a granularity, return the smallest multiple of
granularity ≥ offset". -/
def alignUp (offset granularity : Nat) : Nat :=
  (offset + granularity - 1) / granularity * granularity

/-- Modelled from the spec: `fourCC` is declared outside `src/`.  Section 6:
"Magic constant = the 4 bytes {'M','P','K',0}", so the four characters are the
bytes of the 32-bit value in storage order. -/
def fourCC (a b c d : Byte) : Nat := ofLE [a, b, c, d]

/-- `constexpr uint32_t MPK_MAGIC = fourCC('M', 'P', 'K', '\0')`. -/
def MPK_MAGIC : Nat := fourCC 77 80 75 0

/-! ## Record layouts -/

/-- A `char[n]` member: exactly `n` bytes. -/
abbrev CharArray (n : Nat) := { l : List Byte // l.length = n }

/-- An all-zero `char[n]` (value initialisation `{}`). -/
def CharArray.zero (n : Nat) : CharArray n := ⟨zeros n, by simp [zeros]⟩

/-- `struct mpk_header`. -/
structure mpk_header where
  magic : Nat
  version : Nat
  entries : Nat
  padding : CharArray 0x30
  deriving DecidableEq, Repr

/-- `struct mpk_entry`. -/
structure mpk_entry where
  compression : Nat
  entry_id : Nat
  offset : Nat
  size : Nat
  size_decompressed : Nat
  filename : CharArray 0xE0
  deriving DecidableEq, Repr

/-- Object representation of a header: `uint32_t`, `uint32_t`, `uint64_t`,
`char[0x30]`. -/
def mpk_header.bytes (h : mpk_header) : List Byte :=
  toLE 4 h.magic ++ toLE 4 h.version ++ toLE 8 h.entries ++ h.padding.val

/-- Object representation of an entry: `uint32_t`, `uint32_t`, three
`uint64_t`, `char[0xE0]`. -/
def mpk_entry.bytes (e : mpk_entry) : List Byte :=
  toLE 4 e.compression ++ toLE 4 e.entry_id ++ toLE 8 e.offset ++ toLE 8 e.size ++
    toLE 8 e.size_decompressed ++ e.filename.val

/-- The value of `sizeof(mpk::mpk_header)`: the length of any header's object
representation. -/
def sizeof_header : Nat := (mpk_header.bytes ⟨0, 0, 0, CharArray.zero _⟩).length

/-- The value of `sizeof(mpk::mpk_entry)`. -/
def sizeof_entry : Nat := (mpk_entry.bytes ⟨0, 0, 0, 0, 0, CharArray.zero _⟩).length

/-- Bytes `[lo, lo + n)` of `bs`, zero-extended to length `n`. -/
def field (bs : List Byte) (lo n : Nat) : List Byte :=
  let got := (bs.drop lo).take n
  got ++ zeros (n - got.length)

/-- A `char[n]` read from bytes `[lo, lo + n)`. -/
def charField (bs : List Byte) (lo n : Nat) : CharArray n :=
  ⟨field bs lo n, by simp only [field, zeros, List.length_append, List.length_take,
    List.length_drop, List.length_replicate]; omega⟩

/-- The header whose object representation is `bs` (`bs` has `sizeof_header`
bytes). -/
def mpk_header.ofBytes (bs : List Byte) : mpk_header :=
  { magic := ofLE (field bs 0 4)
    version := ofLE (field bs 4 4)
    entries := ofLE (field bs 8 8)
    padding := charField bs 16 0x30 }

/-- The entry whose object representation is `bs` (`bs` has `sizeof_entry`
bytes). -/
def mpk_entry.ofBytes (bs : List Byte) : mpk_entry :=
  { compression := ofLE (field bs 0 4)
    entry_id := ofLE (field bs 4 4)
    offset := ofLE (field bs 8 8)
    size := ofLE (field bs 16 8)
    size_decompressed := ofLE (field bs 24 8)
    filename := charField bs 32 0xE0 }

/-! ## stdio streams on regular files -/

/-- A `FILE*` open on a regular file: the bytes of the file and the position
indicator. -/
structure FILE where
  data : List Byte
  pos : Nat
  deriving DecidableEq, Repr

/-- `fopen(path, "wb")`: the file is created or truncated to length zero. -/
def fopen_wb : FILE := ⟨[], 0⟩

/-- `fopen(path, "rb")` on a file holding `contents`. -/
def fopen_rb (contents : List Byte) : FILE := ⟨contents, 0⟩

/-- `ftell(fp)`. -/
def ftell (fp : FILE) : Nat := fp.pos

/-- `fseek(fp, off, SEEK_SET)` for an offset the stream accepts, as every
position of the packer is.  Seeking does not change the file, even past its
end.  The run on any container, `unpack_loop`, covers the stored offsets that
the unchecked seek of the unpacker may refuse. -/
def fseek_set (fp : FILE) (off : Nat) : FILE := { fp with pos := off }

/-- `fseek(fp, off, SEEK_CUR)`. -/
def fseek_cur (fp : FILE) (off : Nat) : FILE := { fp with pos := fp.pos + off }

/-- `fwrite` of the bytes `bs` at the position indicator.  Writing nothing
leaves the file as it is; writing past the end first fills the gap with zero
bytes. -/
def fwrite (bs : List Byte) (fp : FILE) : FILE :=
  if bs = [] then fp
  else
    { data := (fp.data ++ zeros (fp.pos - fp.data.length)).take fp.pos ++ bs ++
        fp.data.drop (fp.pos + bs.length)
      pos := fp.pos + bs.length }

/-- `fread(buf, 1, n, fp)`: the bytes available from the position indicator, at
most `n`, overwrite the front of `buf`; the rest of `buf` keeps its value. -/
def fread (buf : List Byte) (n : Nat) (fp : FILE) : List Byte × FILE :=
  let got := (fp.data.drop fp.pos).take n
  (got ++ buf.drop got.length, { fp with pos := fp.pos + got.length })

/-- `std::vector<uint8_t>::resize(n)` for a size the vector accepts
(`n < 2 ^ 63`): keep the first `n` bytes, append zeros up to `n`.  The run on
any container, `unpack_loop`, covers the sizes for which `resize` throws. -/
def resize (buf : List Byte) (n : Nat) : List Byte :=
  buf.take n ++ zeros (n - buf.length)

/-! ## The packer (`main`, create branch) -/

/-- What `directory_iterator` reports about a member of the directory. -/
inductive file_type where
  | regular
  | directory
  | other
  deriving DecidableEq, Repr

/-- A member of the input directory: its file name, its type and, for a regular
file, its bytes. -/
structure directory_entry where
  name : List Byte
  type : file_type
  contents : List Byte
  deriving DecidableEq, Repr

/-- `std::filesystem::file_size`. -/
def file_size (f : directory_entry) : Nat := f.contents.length

/-- Strict bytewise lexicographic order on file names: `operator<` on two paths
with the same parent. -/
def path_lt : List Byte → List Byte → Bool
  | [], [] => false
  | [], _ :: _ => true
  | _ :: _, [] => false
  | a :: as, b :: bs => if a < b then true else if b < a then false else path_lt as bs

/-- Insertion of one path into a sorted vector. -/
def sort_insert (f : directory_entry) : List directory_entry → List directory_entry
  | [] => [f]
  | g :: gs => if path_lt g.name f.name then g :: sort_insert f gs else f :: g :: gs

/-- `std::sort(files.begin(), files.end())`.  File names within one directory
are distinct, so the sorted order is unique. -/
def sort (files : List directory_entry) : List directory_entry :=
  files.foldr sort_insert []

/-- Lines 73-80: the regular files of the directory, sorted by path. -/
def list_files (dir : List directory_entry) : List directory_entry :=
  sort (dir.filter fun e => e.type = file_type.regular)

/-- Writing `bs` into a `char[n]` from index `i` on (in bounds when
`i + bs.length ≤ n`). -/
def CharArray.write {n : Nat} (a : CharArray n) (i : Nat) (bs : List Byte) : CharArray n :=
  ⟨((a.val.take i ++ bs ++ a.val.drop (i + bs.length)).take n) ++
      zeros (n - (a.val.take i ++ bs ++ a.val.drop (i + bs.length)).length),
    by simp only [zeros, List.length_append, List.length_take, List.length_drop,
      List.length_replicate]; omega⟩

/-- Lines 83-89: the entry built for the `i`-th sorted file, before the payload
loop fills in `offset` and the sizes. -/
def init_entry (i : Nat) (filename : List Byte) : mpk_entry :=
  let entry : mpk_entry := ⟨0, 0, 0, 0, 0, CharArray.zero _⟩
  let entry := { entry with entry_id := i % 2 ^ 32 }
  let copy_len := min filename.length (0xE0 - 1)
  let entry := { entry with filename := entry.filename.write 0 (filename.take copy_len) }
  { entry with filename := entry.filename.write copy_len [0] }

/-- Lines 82-93: the vector `entries`, from index `i` on. -/
def init_entries : Nat → List directory_entry → List (mpk_entry × directory_entry)
  | _, [] => []
  | i, f :: fs => (init_entry i f.name, f) :: init_entries (i + 1) fs

/-- Lines 82-93: `buffer_size`, the largest file size. -/
def buffer_size (files : List directory_entry) : Nat :=
  files.foldl (fun m f => max m (file_size f)) 0

/-- Lines 111-119: the payload loop.  Returns the entries with `offset`, `size`
and `size_decompressed` filled in, and the output stream. -/
def payload_loop (buffer : List Byte) (fp : FILE) :
    List (mpk_entry × directory_entry) → List (mpk_entry × directory_entry) × FILE
  | [] => ([], fp)
  | (entry, path) :: rest =>
    let fp_in := fopen_rb path.contents
    let entry := { entry with offset := ftell fp }
    let entry := { entry with size := file_size path, size_decompressed := file_size path }
    let buffer := (fread buffer entry.size fp_in).1
    let fp := fwrite (buffer.take entry.size) fp
    let fp := fseek_set fp (alignUp (ftell fp) 2048)
    let r := payload_loop buffer fp rest
    ((entry, path) :: r.1, r.2)

/-- Line 122: the entry table is written record by record. -/
def write_entries (fp : FILE) : List (mpk_entry × directory_entry) → FILE
  | [] => fp
  | (entry, _) :: rest => write_entries (fwrite entry.bytes fp) rest

/-- Lines 103-106: the header of a container with `n` entries. -/
def make_header (n : Nat) : mpk_header :=
  { magic := MPK_MAGIC, version := 0x020000, entries := n, padding := CharArray.zero _ }

/-- Lines 73-119: the vector `entries` after the payload loop and the output
stream at that point. -/
def create_payloads (dir : List directory_entry) :
    List (mpk_entry × directory_entry) × FILE :=
  let files := list_files dir
  let entries := init_entries 0 files
  let buffer := zeros (buffer_size files)
  let fp := fopen_wb
  let hdr := make_header entries.length
  let fp := fwrite hdr.bytes fp
  let fp := fseek_cur fp (hdr.entries * sizeof_entry)
  let fp := fseek_set fp (alignUp (ftell fp) 2048)
  payload_loop buffer fp entries

/-- The entry records the packer writes for the directory `dir`. -/
def create_entries (dir : List directory_entry) : List mpk_entry :=
  (create_payloads dir).1.map Prod.fst

/-- Lines 73-123: the bytes of the container the packer produces from the
directory `dir`. -/
def create (dir : List directory_entry) : List Byte :=
  let r := create_payloads dir
  let fp := fseek_set r.2 sizeof_header
  (write_entries fp r.1).data

/-! ## The unpacker (`main`, extract branch) -/

/-- `std::string(const char*)`: the bytes before the first NUL.  Applied to
the bytes of a `char[n]` member it is the string read from that member when
the member holds a NUL; `stored_name` covers a member without one. -/
def c_str (a : List Byte) : List Byte := a.takeWhile fun b => b ≠ 0

/-- `path::filename()`: the part of a path after its last directory
separator `/`. -/
def path_filename : List Byte → List Byte
  | [] => []
  | b :: bs => if (47 : Byte) ∈ b :: bs then path_filename bs else b :: bs

/-- The suffix of `s` that starts at its last period, when that period is not
the first byte of `s` (`first` tells whether `s` starts the file name). -/
def last_dot_suffix : Bool → List Byte → List Byte
  | _, [] => []
  | first, b :: bs =>
    if (46 : Byte) ∈ bs then last_dot_suffix false bs
    else if b = 46 ∧ first = false then b :: bs
    else []

/-- `path::extension()`: empty for the file names `.` and `..`; otherwise the
file name from its rightmost period on, unless that period is the first
character of the file name or there is none. -/
def path_extension (p : List Byte) : List Byte :=
  let f := path_filename p
  if f = [46] ∨ f = [46, 46] then [] else last_dot_suffix true f

/-- Least significant first decimal digits of `n` (at most `fuel` of them). -/
def digitsLE : Nat → Nat → List Nat
  | 0, _ => []
  | fuel + 1, n => if n = 0 then [] else n % 10 :: digitsLE fuel (n / 10)

/-- `std::to_string` of an unsigned value: its decimal digits, no padding. -/
def to_string (n : Nat) : List Byte :=
  if n = 0 then [48] else (digitsLE n n).reverse.map fun d => Fin.ofNat (48 + d)

/-- Entry `i` of the vector `entries` whose storage is `table`. -/
def entry_at (table : List Byte) (i : Nat) : mpk_entry :=
  mpk_entry.ofBytes ((table.drop (i * sizeof_entry)).take sizeof_entry)

/-- Lines 145-152: the name of the output file of entry `entry` at index `i`. -/
def output_filename (base_name : List Byte) (i : Nat) (entry : mpk_entry) : List Byte :=
  let original_filename := c_str entry.filename.val
  let extension := path_extension original_filename
  let extension := if extension = [] then [46, 98, 105, 110] else extension
  base_name ++ to_string ((i + 1) % 2 ^ 32) ++ extension

/-- What an extraction run did to the file system: the directories it asked to
create and the files it wrote (name within the output directory, bytes), in
program order. -/
structure Effects where
  dirs : List (List Byte)
  files : List (List Byte × List Byte)
  deriving DecidableEq, Repr

/-- How a run of `main` ends. -/
inductive Exit where
  | EXIT_SUCCESS
  | EXIT_FAILURE
  deriving DecidableEq, Repr

/-- Lines 142-164: the entry loop, from index `i` on, with `fuel` bounding the
number of iterations.  `count` is `entries.size()`; the `uint32_t` counter
wraps at `2 ^ 32`.  `none` when the fuel runs out.  This is the loop on a
container whose file name fields hold a NUL and whose stored offsets and sizes
are below `2 ^ 63`, as in every container of the packer: each name is read
from its own field, every seek is taken and every `resize` returns.
`unpack_loop` is the loop on any container. -/
def extract_loop (base_name : List Byte) (table : List Byte) (count : Nat) :
    Nat → Nat → FILE → List Byte → List (List Byte × List Byte) →
      Option (List (List Byte × List Byte))
  | 0, _, _, _, _ => none
  | fuel + 1, i, fp, buffer, files =>
    if i < count then
      let entry := entry_at table i
      let output := output_filename base_name i entry
      let fp_out := fopen_wb
      let fp := fseek_set fp entry.offset
      let buffer := resize buffer entry.size
      let r := fread buffer entry.size fp
      let fp_out := fwrite (r.1.take entry.size) fp_out
      extract_loop base_name table count fuel ((i + 1) % 2 ^ 32) r.2 r.1
        (files ++ [(output, fp_out.data)])
    else some files

/-- Modelled from the spec: the macro `CHECK` is declared outside `src/`.
Section 7: "all fatal conditions abort the entire operation immediately",
with "a diagnostic message and non-zero exit status".  When `cond` fails the
run ends at once with a failure status and the effects `done` it has had so
far; otherwise it goes on with `rest`. -/
def CHECK (cond : Prop) [Decidable cond] (done : Effects)
    (rest : Option (Exit × Effects)) : Option (Exit × Effects) :=
  if cond then rest else some (Exit.EXIT_FAILURE, done)

/-- Lines 126-165: extraction of the container `container` into the directory
`outdir`, output names starting with `base_name`.  `none` when `fuel`
iterations of the entry loop are not enough.  See `extract_loop` for the
containers it describes; `unpack` is the run on any container. -/
def extract (fuel : Nat) (outdir base_name container : List Byte) :
    Option (Exit × Effects) :=
  let fp := fopen_rb container
  let r := fread (zeros sizeof_header) sizeof_header fp
  let hdr := mpk_header.ofBytes r.1
  CHECK (hdr.magic = MPK_MAGIC) ⟨[], []⟩
    (let t := fread (zeros (hdr.entries * sizeof_entry)) (hdr.entries * sizeof_entry) r.2
     (extract_loop base_name t.1 hdr.entries fuel 0 t.2 [] []).map
       fun files => (Exit.EXIT_SUCCESS, ⟨[outdir], files⟩))

/-! ## Layout of a container, stated without streams -/

/-- The values a record holds after a round trip through its object
representation: each integer reduced to the width of its field. -/
def mpk_entry.norm (e : mpk_entry) : mpk_entry :=
  { compression := e.compression % 2 ^ 32
    entry_id := e.entry_id % 2 ^ 32
    offset := e.offset % 2 ^ 64
    size := e.size % 2 ^ 64
    size_decompressed := e.size_decompressed % 2 ^ 64
    filename := e.filename }

/-- All integer fields of the entry fit their declared widths. -/
def mpk_entry.inRange (e : mpk_entry) : Prop :=
  e.compression < 2 ^ 32 ∧ e.entry_id < 2 ^ 32 ∧ e.offset < 2 ^ 64 ∧ e.size < 2 ^ 64 ∧
    e.size_decompressed < 2 ^ 64

/-- The entries of the payload loop with their final fields, when the loop
starts at position `pos`. -/
def fill (pos : Nat) :
    List (mpk_entry × directory_entry) → List (mpk_entry × directory_entry)
  | [] => []
  | (e, f) :: rest =>
    ({ e with offset := pos, size := file_size f, size_decompressed := file_size f }, f) ::
      fill (alignUp (pos + file_size f) 2048) rest

/-- The position indicator after the payload loop, started at `pos`. -/
def end_pos (pos : Nat) : List directory_entry → Nat
  | [] => pos
  | f :: fs => end_pos (alignUp (pos + file_size f) 2048) fs

/-- The bytes the payload loop appends to a file of length `len` when it
starts at position `pos`. -/
def payload_data (len pos : Nat) : List directory_entry → List Byte
  | [] => []
  | f :: fs =>
    if f.contents = [] then payload_data len (alignUp (pos + file_size f) 2048) fs
    else zeros (pos - len) ++ f.contents ++
      payload_data (pos + file_size f) (alignUp (pos + file_size f) 2048) fs

/-- The entry table: the object representations of the records, in order. -/
def table_bytes (entries : List mpk_entry) : List Byte :=
  (entries.map mpk_entry.bytes).flatten

/-- Bytes `[lo, lo + n)` of `bs`, as far as they exist. -/
def slice (bs : List Byte) (lo n : Nat) : List Byte := (bs.drop lo).take n

/-- Lines 126-129: the header the unpacker reads from a container. -/
def read_header (container : List Byte) : mpk_header :=
  mpk_header.ofBytes (fread (zeros sizeof_header) sizeof_header (fopen_rb container)).1

/-- Lines 135-136: the vector `entries` the unpacker reads from a container
whose magic is valid. -/
def read_entries (container : List Byte) : List mpk_entry :=
  let r := fread (zeros sizeof_header) sizeof_header (fopen_rb container)
  let hdr := mpk_header.ofBytes r.1
  let t := fread (zeros (hdr.entries * sizeof_entry)) (hdr.entries * sizeof_entry) r.2
  (List.range hdr.entries).map fun i => entry_at t.1 i

/-- Lines 135-136: the storage of the vector `entries` after the table has been
read from a container whose magic is valid. -/
def read_table (container : List Byte) : List Byte :=
  let r := fread (zeros sizeof_header) sizeof_header (fopen_rb container)
  let hdr := mpk_header.ofBytes r.1
  (fread (zeros (hdr.entries * sizeof_entry)) (hdr.entries * sizeof_entry) r.2).1

/-- The four bytes `M`, `P`, `K`, NUL of the magic constant. -/
def magic_bytes : List Byte := [77, 80, 75, 0]

/-- The suffix the unpacker appends for a stored file name (lines 146-150):
its extension, or `.bin` when it has none. -/
def output_extension (stored : List Byte) : List Byte :=
  if path_extension stored = [] then [46, 98, 105, 110] else path_extension stored

/-! ## The unpacker on any container -/

/-- How a run of the unpacker on any container ends. -/
inductive Outcome where
  /-- `main` returned this status, or a `CHECK` failed. -/
  | exited (status : Exit)
  /-- An exception left `main` (`std::length_error` of `resize`): the run
  ended in `std::terminate`. -/
  | aborted
  /-- The run read a file name that has no NUL up to the end of the storage of
  `entries`: the language defines no behaviour. -/
  | undefined
  /-- The run read payload bytes after a seek that the C library or the file
  system may refuse: what it read is not determined by the source. -/
  | unspecified
  deriving DecidableEq, Repr

/-- Byte offset of the member `filename` in an `mpk_entry`: after two
`uint32_t` and three `uint64_t`. -/
def filename_offset : Nat := 4 + 4 + 8 + 8 + 8

/-- Line 145, `std::string original_filename(entry.filename)`, for entry `i`
of the vector whose storage is `table`: the bytes from the start of the file
name field to the first NUL.  The read does not stop at the end of the field:
with no NUL in the field it goes on through the records that follow, and with
no NUL in the rest of the storage it leaves the storage (`none`). -/
def stored_name (table : List Byte) (i : Nat) : Option (List Byte) :=
  let s := table.drop (i * sizeof_entry + filename_offset)
  if (0 : Byte) ∈ s then some (c_str s) else none

/-- Lines 148-152: the name of the output file at index `i` for the file name
`original_filename` read from the entry. -/
def output_name (base_name : List Byte) (i : Nat) (original_filename : List Byte) :
    List Byte :=
  base_name ++ to_string ((i + 1) % 2 ^ 32) ++ output_extension original_filename

/-- Line 159, the unchecked `fseek(fp, entry.offset, SEEK_SET)` on a container
of `len` bytes: the position after the seek when the seek is sure to be taken,
that is for an offset within the file and below `2 ^ 63`, the range of `long`.
Any other offset may be refused (it is, from `2 ^ 63` on, and above the size
limit of the file system), and the position is then not known (`none`). -/
def fseek_unchecked (len offset : Nat) : Option Nat :=
  if offset ≤ len ∧ offset < 2 ^ 63 then some offset else none

/-- Lines 142-164 on any container `data`: the entry loop from index `i` on,
with `fuel` bounding the number of iterations (`none` when it runs out).
Returns how the run ends and the files written, in program order.  The output
file is created before the seek; `resize` throws for a size from `2 ^ 63` on;
an entry of size zero reads nothing, whatever the position.  With `undefined`
and `unspecified` the files are those written before the run left what the
source determines. -/
def unpack_loop (base_name table : List Byte) (count : Nat) (data : List Byte) :
    Nat → Nat → List Byte → List (List Byte × List Byte) →
      Option (Outcome × List (List Byte × List Byte))
  | 0, _, _, _ => none
  | fuel + 1, i, buffer, files =>
    if i < count then
      let entry := entry_at table i
      match stored_name table i with
      | none => some (Outcome.undefined, files)
      | some original_filename =>
        let output := output_name base_name i original_filename
        if 2 ^ 63 ≤ entry.size then some (Outcome.aborted, files ++ [(output, [])])
        else if entry.size = 0 then
          unpack_loop base_name table count data fuel ((i + 1) % 2 ^ 32) []
            (files ++ [(output, [])])
        else
          match fseek_unchecked data.length entry.offset with
          | none => some (Outcome.unspecified, files)
          | some pos =>
            let buffer := resize buffer entry.size
            let r := fread buffer entry.size ⟨data, pos⟩
            let fp_out := fwrite (r.1.take entry.size) fopen_wb
            unpack_loop base_name table count data fuel ((i + 1) % 2 ^ 32) r.1
              (files ++ [(output, fp_out.data)])
    else some (Outcome.exited Exit.EXIT_SUCCESS, files)

/-- Lines 126-165 on any container: extraction of `container` into the
directory `outdir`, output names starting with `base_name`.  A wrong magic
fails the `CHECK` of line 130 before anything is created. -/
def unpack (fuel : Nat) (outdir base_name container : List Byte) :
    Option (Outcome × Effects) :=
  if (read_header container).magic = MPK_MAGIC then
    (unpack_loop base_name (read_table container) (read_header container).entries container
      fuel 0 [] []).map fun r => (r.1, ⟨[outdir], r.2⟩)
  else some (Outcome.exited Exit.EXIT_FAILURE, ⟨[], []⟩)

/-! ## A concrete directory -/

/-- The empty regular file `a.dat`. -/
def a_dat : directory_entry := ⟨[97, 46, 100, 97, 116], file_type.regular, []⟩

/-- The regular file `b.txt` holding the three bytes `xyz`. -/
def b_txt : directory_entry :=
  ⟨[98, 46, 116, 120, 116], file_type.regular, [120, 121, 122]⟩

/-- A directory that lists `b.txt` before `a.dat`. -/
def scenario : List directory_entry := [b_txt, a_dat]

/-- The entry the packer writes for `a.dat` in `scenario`. -/
def a_dat_entry : mpk_entry := { init_entry 0 a_dat.name with offset := 2048 }

/-- The entry the packer writes for `b.txt` in `scenario`. -/
def b_txt_entry : mpk_entry :=
  { init_entry 1 b_txt.name with offset := 2048, size := 3, size_decompressed := 3 }

/-- The name `test`, the stem of `test.mpk`. -/
def test_stem : List Byte := [116, 101, 115, 116]

/-! ## Concrete containers -/

/-- An entry for `a.dat` with three payload bytes at offset 320. -/
def small_entry : mpk_entry :=
  { init_entry 0 a_dat.name with offset := 320, size := 3, size_decompressed := 3 }

/-- A container of one entry: header, one record, then the payload `xyz`. -/
def small_container : List Byte :=
  (make_header 1).bytes ++ small_entry.bytes ++ [120, 121, 122]

/-- A file name of 224 bytes, all `a`. -/
def long_name : List Byte := List.replicate 224 97

/-- An entry whose file name field is `long_name`: 224 bytes `a`, no NUL and no
period. -/
def unterminated_entry : mpk_entry :=
  ⟨0, 0, 0, 0, 0, ⟨long_name, by rw [long_name, List.length_replicate]⟩⟩

/-- An entry named `b.txt` whose compression field has the four bytes `.txt`
(and whose entry id 0 has a zero byte next). -/
def dotted_entry : mpk_entry :=
  { init_entry 0 b_txt.name with compression := ofLE [46, 116, 120, 116] }

/-- A container of two entries, all payloads empty: the file name field of the
first holds no NUL, and the record after it starts with the bytes `.txt`. -/
def unterminated_container : List Byte :=
  (make_header 2).bytes ++ unterminated_entry.bytes ++ dotted_entry.bytes

/-- The same container with compression 0 in the second record. -/
def unterminated_container_zero : List Byte :=
  (make_header 2).bytes ++ unterminated_entry.bytes ++ (init_entry 0 b_txt.name).bytes

/-- An empty regular file whose name is `long_name`. -/
def long_file : directory_entry := ⟨long_name, file_type.regular, []⟩

/-! # Properties -/

/-! ## Little-endian integers -/

@[simp] theorem length_toLE (w n : Nat) : (toLE w n).length = w := by
  induction w generalizing n with
  | zero => rfl
  | succ w ih => simp [toLE, ih]

@[simp] theorem length_zeros (n : Nat) : (zeros n).length = n := by
  simp [zeros]

theorem ofLE_toLE (w n : Nat) : ofLE (toLE w n) = n % 256 ^ w := by
  induction w generalizing n with
  | zero => simp [toLE, ofLE, Nat.mod_one]
  | succ w ih =>
    simp only [toLE, ofLE, ih, Fin.ofNat, Nat.mod_mod]
    rw [pow_succ, Nat.mul_comm (256 ^ w) 256, Nat.mod_mul]

theorem ofLE_toLE_of_lt (w n : Nat) (h : n < 256 ^ w) : ofLE (toLE w n) = n := by
  rw [ofLE_toLE, Nat.mod_eq_of_lt h]


/-! ## Record layouts -/

theorem field_eq (bs p x s : List Byte) (lo n : Nat) (hb : bs = p ++ (x ++ s))
    (hp : p.length = lo) (hx : x.length = n) : field bs lo n = x := by
  subst hb hp hx
  simp [field, zeros]

theorem length_header_bytes (h : mpk_header) : h.bytes.length = 0x40 := by
  simp [mpk_header.bytes, h.padding.property]

theorem length_entry_bytes (e : mpk_entry) : e.bytes.length = 0x100 := by
  simp [mpk_entry.bytes, e.filename.property]

theorem sizeof_header_eq : sizeof_header = 0x40 := length_header_bytes _

theorem sizeof_entry_eq : sizeof_entry = 0x100 := length_entry_bytes _

theorem entry_ofBytes_bytes (e : mpk_entry) : mpk_entry.ofBytes e.bytes = e.norm := by
  have hf := e.filename.property
  have h0 : field e.bytes 0 4 = toLE 4 e.compression :=
    field_eq _ [] (toLE 4 e.compression) (toLE 4 e.entry_id ++ toLE 8 e.offset ++ toLE 8 e.size
      ++ toLE 8 e.size_decompressed ++ e.filename.val) _ _
      (by simp [mpk_entry.bytes]) rfl (by simp)
  have h1 : field e.bytes 4 4 = toLE 4 e.entry_id :=
    field_eq _ (toLE 4 e.compression) (toLE 4 e.entry_id) (toLE 8 e.offset ++ toLE 8 e.size
      ++ toLE 8 e.size_decompressed ++ e.filename.val) _ _
      (by simp [mpk_entry.bytes]) (by simp) (by simp)
  have h2 : field e.bytes 8 8 = toLE 8 e.offset :=
    field_eq _ (toLE 4 e.compression ++ toLE 4 e.entry_id) (toLE 8 e.offset)
      (toLE 8 e.size ++ toLE 8 e.size_decompressed ++ e.filename.val) _ _
      (by simp [mpk_entry.bytes]) (by simp) (by simp)
  have h3 : field e.bytes 16 8 = toLE 8 e.size :=
    field_eq _ (toLE 4 e.compression ++ toLE 4 e.entry_id ++ toLE 8 e.offset) (toLE 8 e.size)
      (toLE 8 e.size_decompressed ++ e.filename.val) _ _
      (by simp [mpk_entry.bytes]) (by simp) (by simp)
  have h4 : field e.bytes 24 8 = toLE 8 e.size_decompressed :=
    field_eq _ (toLE 4 e.compression ++ toLE 4 e.entry_id ++ toLE 8 e.offset ++ toLE 8 e.size)
      (toLE 8 e.size_decompressed) e.filename.val _ _
      (by simp [mpk_entry.bytes]) (by simp) (by simp)
  have h5 : field e.bytes 32 0xE0 = e.filename.val :=
    field_eq _ (toLE 4 e.compression ++ toLE 4 e.entry_id ++ toLE 8 e.offset ++ toLE 8 e.size
      ++ toLE 8 e.size_decompressed) e.filename.val [] _ _
      (by simp [mpk_entry.bytes]) (by simp) hf
  have h6 : charField e.bytes 32 0xE0 = e.filename := Subtype.ext h5
  simp only [mpk_entry.ofBytes, mpk_entry.norm, h0, h1, h2, h3, h4, h6, ofLE_toLE]
  norm_num

theorem norm_of_inRange (e : mpk_entry) (h : e.inRange) : e.norm = e := by
  obtain ⟨h1, h2, h3, h4, h5⟩ := h
  cases e
  simp only [mpk_entry.norm, mpk_entry.mk.injEq, and_true]
  exact ⟨Nat.mod_eq_of_lt h1, Nat.mod_eq_of_lt h2, Nat.mod_eq_of_lt h3, Nat.mod_eq_of_lt h4,
    Nat.mod_eq_of_lt h5⟩

theorem header_ofBytes_bytes (h : mpk_header) :
    mpk_header.ofBytes h.bytes =
      ⟨h.magic % 2 ^ 32, h.version % 2 ^ 32, h.entries % 2 ^ 64, h.padding⟩ := by
  have hf := h.padding.property
  have h0 : field h.bytes 0 4 = toLE 4 h.magic :=
    field_eq _ [] (toLE 4 h.magic) (toLE 4 h.version ++ toLE 8 h.entries ++ h.padding.val) _ _
      (by simp [mpk_header.bytes]) rfl (by simp)
  have h1 : field h.bytes 4 4 = toLE 4 h.version :=
    field_eq _ (toLE 4 h.magic) (toLE 4 h.version) (toLE 8 h.entries ++ h.padding.val) _ _
      (by simp [mpk_header.bytes]) (by simp) (by simp)
  have h2 : field h.bytes 8 8 = toLE 8 h.entries :=
    field_eq _ (toLE 4 h.magic ++ toLE 4 h.version) (toLE 8 h.entries) h.padding.val _ _
      (by simp [mpk_header.bytes]) (by simp) (by simp)
  have h3 : field h.bytes 16 0x30 = h.padding.val :=
    field_eq _ (toLE 4 h.magic ++ toLE 4 h.version ++ toLE 8 h.entries) h.padding.val [] _ _
      (by simp [mpk_header.bytes]) (by simp) hf
  have h4 : charField h.bytes 16 0x30 = h.padding := Subtype.ext h3
  simp only [mpk_header.ofBytes, h0, h1, h2, h4, ofLE_toLE]
  norm_num

/-! ## Alignment -/

theorem alignUp_mod (n : Nat) : alignUp n 2048 % 2048 = 0 := by
  simp [alignUp]

theorem le_alignUp (n : Nat) : n ≤ alignUp n 2048 := by
  unfold alignUp
  omega

theorem alignUp_lt (n : Nat) : alignUp n 2048 < n + 2048 := by
  unfold alignUp
  omega

theorem alignUp_of_mod (n : Nat) (h : n % 2048 = 0) : alignUp n 2048 = n := by
  unfold alignUp
  omega

/-! ## Streams -/

theorem fwrite_data_of_le (bs : List Byte) (fp : FILE) (h : fp.data.length ≤ fp.pos)
    (hb : bs ≠ []) :
    (fwrite bs fp).data = fp.data ++ zeros (fp.pos - fp.data.length) ++ bs := by
  simp only [fwrite, if_neg hb]
  rw [List.take_of_length_le (by simp; omega), List.drop_of_length_le (by omega)]
  simp

theorem fwrite_pos (bs : List Byte) (fp : FILE) : (fwrite bs fp).pos = fp.pos + bs.length := by
  unfold fwrite
  split
  · next h => simp [h]
  · rfl

theorem fwrite_fwrite (a b : List Byte) (fp : FILE) :
    fwrite b (fwrite a fp) = fwrite (a ++ b) fp := by
  by_cases ha : a = []
  · simp [ha, fwrite]
  by_cases hb : b = []
  · simp [hb, fwrite]
  simp only [fwrite, if_neg ha, if_neg hb, List.append_eq_nil, false_and, if_false, ha,
    FILE.mk.injEq, List.length_append]
  refine ⟨?_, by omega⟩
  generalize hA : (fp.data ++ zeros (fp.pos - fp.data.length)).take fp.pos = A
  have h1 : A.length = fp.pos := by
    rw [← hA]; simp; omega
  have h2 : (A ++ a ++ List.drop (fp.pos + a.length) fp.data ++
      zeros (fp.pos + a.length - (A.length + a.length +
        (List.drop (fp.pos + a.length) fp.data).length))).take (fp.pos + a.length) = A ++ a := by
    rw [List.append_assoc (A ++ a)]
    exact List.take_left' (by simp [h1])
  have h3 : (A ++ a ++ List.drop (fp.pos + a.length) fp.data).drop (fp.pos + a.length + b.length)
      = List.drop (fp.pos + (a.length + b.length)) fp.data := by
    rw [List.drop_append_eq_append_drop]
    rw [List.drop_of_length_le (by simp [h1])]
    simp [h1]
    congr 1
    omega
  rw [h2, h3]
  simp

theorem length_table_bytes (es : List mpk_entry) :
    (table_bytes es).length = es.length * sizeof_entry := by
  induction es with
  | nil => simp [table_bytes]
  | cons e es ih =>
    simp only [table_bytes, List.map_cons, List.flatten_cons, List.length_append,
      List.length_cons] at ih ⊢
    rw [ih, length_entry_bytes, sizeof_entry_eq]
    ring

theorem write_entries_eq (fp : FILE) (es : List (mpk_entry × directory_entry)) :
    write_entries fp es = fwrite (table_bytes (es.map Prod.fst)) fp := by
  induction es generalizing fp with
  | nil => simp [write_entries, table_bytes, fwrite]
  | cons e es ih =>
    obtain ⟨e, f⟩ := e
    simp only [write_entries, ih, fwrite_fwrite, table_bytes, List.map_cons, List.flatten_cons]

/-! ## The payload loop -/

theorem payload_loop_eq (buffer : List Byte) (fp : FILE)
    (es : List (mpk_entry × directory_entry)) (h : fp.data.length ≤ fp.pos) :
    payload_loop buffer fp es =
      (fill fp.pos es,
        ⟨fp.data ++ payload_data fp.data.length fp.pos (es.map Prod.snd),
          end_pos fp.pos (es.map Prod.snd)⟩) := by
  induction es generalizing buffer fp with
  | nil => simp [payload_loop, fill, payload_data, end_pos]
  | cons e es ih =>
    obtain ⟨e, f⟩ := e
    have hbuf : ((fread buffer (file_size f) (fopen_rb f.contents)).1).take (file_size f)
        = f.contents := by
      simp [fread, fopen_rb, file_size]
    simp only [payload_loop, hbuf, ftell, fseek_set, fill, List.map_cons, payload_data, end_pos]
    by_cases hc : f.contents = []
    · have hs : file_size f = 0 := by simp [file_size, hc]
      rw [ih _ _ (by simp [fwrite, hc]; exact le_trans h (le_trans (by omega) (le_alignUp _)))]
      simp [fwrite, hc, hs]
    · rw [ih _ _ (by
        simp only [fwrite_data_of_le _ _ h hc, fwrite_pos]
        simp [file_size]
        exact le_trans (by omega) (le_alignUp _))]
      simp only [fwrite_data_of_le _ _ h hc, fwrite_pos, if_neg hc]
      simp only [file_size, List.length_append, length_zeros, List.append_assoc]
      rw [show fp.data.length + (fp.pos - fp.data.length + f.contents.length)
        = fp.pos + f.contents.length by omega]

/-! ## Closed form of the container -/

theorem map_snd_init_entries (i : Nat) (files : List directory_entry) :
    (init_entries i files).map Prod.snd = files := by
  induction files generalizing i with
  | nil => rfl
  | cons f fs ih => simp [init_entries, ih]

theorem length_init_entries (i : Nat) (files : List directory_entry) :
    (init_entries i files).length = files.length := by
  rw [← List.length_map _ Prod.snd, map_snd_init_entries]

theorem map_snd_fill (pos : Nat) (es : List (mpk_entry × directory_entry)) :
    (fill pos es).map Prod.snd = es.map Prod.snd := by
  induction es generalizing pos with
  | nil => rfl
  | cons e es ih => obtain ⟨e, f⟩ := e; simp [fill, ih]

theorem length_fill (pos : Nat) (es : List (mpk_entry × directory_entry)) :
    (fill pos es).length = es.length := by
  rw [← List.length_map _ Prod.snd, map_snd_fill, List.length_map]

theorem fwrite_fopen_wb (bs : List Byte) : fwrite bs fopen_wb = ⟨bs, bs.length⟩ := by
  by_cases h : bs = []
  · simp [fwrite, fopen_wb, h]
  · simp [fwrite, fopen_wb, h, zeros]

theorem create_payloads_eq (dir : List directory_entry) :
    create_payloads dir =
      (fill (alignUp (sizeof_header + (list_files dir).length * sizeof_entry) 2048)
          (init_entries 0 (list_files dir)),
        ⟨(make_header (list_files dir).length).bytes ++
            payload_data sizeof_header
              (alignUp (sizeof_header + (list_files dir).length * sizeof_entry) 2048)
              (list_files dir),
          end_pos (alignUp (sizeof_header + (list_files dir).length * sizeof_entry) 2048)
            (list_files dir)⟩) := by
  unfold create_payloads
  simp only [fwrite_fopen_wb, fseek_cur, fseek_set, ftell]
  rw [payload_loop_eq _ _ _ (by
    simp only [length_header_bytes, length_init_entries, make_header]
    exact le_trans (by omega) (le_alignUp _))]
  simp only [length_init_entries, map_snd_init_entries, length_header_bytes, make_header,
    sizeof_header_eq]

theorem length_create_entries (dir : List directory_entry) :
    (create_entries dir).length = (list_files dir).length := by
  simp [create_entries, create_payloads_eq, length_fill, length_init_entries]

theorem create_eq (dir : List directory_entry) :
    create dir = (make_header (list_files dir).length).bytes ++ table_bytes (create_entries dir) ++
      (payload_data sizeof_header
        (alignUp (sizeof_header + (list_files dir).length * sizeof_entry) 2048)
        (list_files dir)).drop ((list_files dir).length * sizeof_entry) := by
  have hlen := length_table_bytes (create_entries dir)
  rw [length_create_entries] at hlen
  unfold create
  simp only [write_entries_eq, fseek_set]
  rw [show (create_payloads dir).1.map Prod.fst = create_entries dir from rfl]
  rw [create_payloads_eq]
  simp only
  by_cases hT : table_bytes (create_entries dir) = []
  · have h0 : (list_files dir).length = 0 := by
      have hz : (table_bytes (create_entries dir)).length = 0 := by rw [hT]; rfl
      rw [sizeof_entry_eq] at hlen
      omega
    have h1 : list_files dir = [] := List.length_eq_zero.mp h0
    simp [fwrite, hT, h1, payload_data]
  · simp only [fwrite, if_neg hT, hlen]
    rw [List.take_append_of_le_length (by simp [length_header_bytes, sizeof_header_eq])]
    rw [List.take_append_of_le_length (by simp [length_header_bytes, sizeof_header_eq])]
    rw [List.take_of_length_le (by simp [length_header_bytes, sizeof_header_eq])]
    rw [List.drop_append_eq_append_drop, List.drop_of_length_le (by
      simp [length_header_bytes, sizeof_header_eq])]
    simp [length_header_bytes, sizeof_header_eq]

/-! ## Where the payloads lie -/

theorem le_offset_of_mem_fill (pos : Nat) (es : List (mpk_entry × directory_entry))
    (p : mpk_entry × directory_entry) (hp : p ∈ fill pos es) : pos ≤ p.1.offset := by
  induction es generalizing pos with
  | nil => simp [fill] at hp
  | cons e es ih =>
    obtain ⟨e, f⟩ := e
    simp only [fill, List.mem_cons] at hp
    rcases hp with rfl | hp
    · exact le_refl _
    · exact le_trans (le_trans (by omega) (le_alignUp _)) (ih _ hp)

theorem size_of_mem_fill (pos : Nat) (es : List (mpk_entry × directory_entry))
    (p : mpk_entry × directory_entry) (hp : p ∈ fill pos es) :
    p.1.size = file_size p.2 ∧ p.1.size_decompressed = file_size p.2 := by
  induction es generalizing pos with
  | nil => simp [fill] at hp
  | cons e es ih =>
    obtain ⟨e, f⟩ := e
    simp only [fill, List.mem_cons] at hp
    rcases hp with rfl | hp
    · exact ⟨rfl, rfl⟩
    · exact ih _ hp

theorem slice_payload_data (len pos : Nat) (es : List (mpk_entry × directory_entry))
    (h : len ≤ pos) (p : mpk_entry × directory_entry) (hp : p ∈ fill pos es) :
    slice (payload_data len pos (es.map Prod.snd)) (p.1.offset - len) p.1.size
      = p.2.contents := by
  induction es generalizing len pos with
  | nil => simp [fill] at hp
  | cons e es ih =>
    obtain ⟨e, f⟩ := e
    simp only [fill, List.mem_cons] at hp
    simp only [List.map_cons, payload_data]
    by_cases hc : f.contents = []
    · rw [if_pos hc]
      rcases hp with rfl | hp
      · simp [slice, file_size, hc]
      · exact ih _ _ (le_trans (by omega) (le_alignUp _)) hp
    · rw [if_neg hc]
      rcases hp with rfl | hp
      · simp only [slice, file_size]
        rw [List.append_assoc, List.drop_append_eq_append_drop]
        simp [zeros]
      · have h1 := le_offset_of_mem_fill _ _ _ hp
        have h2 := le_alignUp (pos + file_size f)
        have h3 := ih (pos + file_size f) _ h2 hp
        rw [← h3]
        simp only [slice]
        rw [List.drop_append_eq_append_drop, List.drop_of_length_le (by
          simp [file_size] at *; omega)]
        simp only [List.nil_append, List.length_append, length_zeros]
        congr 2
        simp only [file_size] at *
        omega

/-- Every payload can be read back from the container at the offset and with
the size stored in its entry. -/
theorem slice_create (dir : List directory_entry) (p : mpk_entry × directory_entry)
    (hp : p ∈ (create_payloads dir).1) :
    slice (create dir) p.1.offset p.1.size = p.2.contents := by
  rw [create_payloads_eq] at hp
  simp only at hp
  have h1 := le_offset_of_mem_fill _ _ _ hp
  have h2 := le_alignUp (sizeof_header + (list_files dir).length * sizeof_entry)
  have h3 := slice_payload_data sizeof_header _ _ (le_trans (by omega) h2) p hp
  rw [map_snd_init_entries] at h3
  have hlen := length_table_bytes (create_entries dir)
  rw [length_create_entries] at hlen
  rw [← h3, create_eq]
  simp only [slice]
  rw [List.drop_append_eq_append_drop, List.drop_of_length_le (by
    simp [length_header_bytes, hlen, sizeof_header_eq] at *; omega)]
  simp only [List.nil_append, List.length_append, hlen, length_header_bytes, List.drop_drop]
  have key : (list_files dir).length * sizeof_entry +
      (p.1.offset - (64 + (list_files dir).length * sizeof_entry))
      = p.1.offset - sizeof_header := by
    rw [sizeof_header_eq, sizeof_entry_eq] at *
    omega
  rw [key]

/-! ## Reading the entry table -/

theorem entry_at_table_bytes (es : List mpk_entry) (rest : List Byte) (i : Nat)
    (e : mpk_entry) (h : es[i]? = some e) :
    entry_at (table_bytes es ++ rest) i = e.norm := by
  induction es generalizing i with
  | nil => simp at h
  | cons a es ih =>
    cases i with
    | zero =>
      simp only [List.getElem?_cons_zero, Option.some.injEq] at h
      subst h
      simp only [entry_at, table_bytes, List.map_cons, List.flatten_cons, Nat.zero_mul,
        List.drop_zero, List.append_assoc]
      rw [List.take_left' (by rw [length_entry_bytes, sizeof_entry_eq])]
      exact entry_ofBytes_bytes _
    | succ i =>
      simp only [List.getElem?_cons_succ] at h
      rw [← ih i h]
      simp only [entry_at, table_bytes, List.map_cons, List.flatten_cons, List.append_assoc]
      rw [show (i + 1) * sizeof_entry = a.bytes.length + i * sizeof_entry by
        rw [length_entry_bytes, sizeof_entry_eq]; ring]
      rw [← List.drop_drop, List.drop_left]

/-! ## The entry loop of the unpacker -/

theorem length_resize (buf : List Byte) (n : Nat) : (resize buf n).length = n := by
  simp [resize]
  omega

/-- One iteration writes the slice `[offset, offset + size)` of the container
whenever that many bytes can be read there. -/
theorem read_write_slice (data buffer : List Byte) (pos offset size : Nat)
    (h : (slice data offset size).length = size) :
    (fwrite ((fread (resize buffer size) size (fseek_set ⟨data, pos⟩ offset)).1.take size)
      fopen_wb).data = slice data offset size := by
  have h1 : (fread (resize buffer size) size (fseek_set ⟨data, pos⟩ offset)).1
      = slice data offset size := by
    simp only [fread, fseek_set, slice] at h ⊢
    rw [h, List.drop_of_length_le (l := resize buffer size) (by rw [length_resize]),
      List.append_nil]
  rw [h1, fwrite_fopen_wb]
  simp only
  exact List.take_of_length_le (by omega)

theorem extract_loop_eq (base_name table : List Byte) (count : Nat) (hc : count < 2 ^ 32)
    (fuel i : Nat) (fp : FILE) (buffer : List Byte) (files : List (List Byte × List Byte))
    (hi : i ≤ count) (hf : count - i < fuel)
    (hr : ∀ j, i ≤ j → j < count →
      (slice fp.data (entry_at table j).offset (entry_at table j).size).length
        = (entry_at table j).size) :
    extract_loop base_name table count fuel i fp buffer files =
      some (files ++ (List.range' i (count - i)).map fun j =>
        (output_filename base_name j (entry_at table j),
          slice fp.data (entry_at table j).offset (entry_at table j).size)) := by
  induction fuel generalizing i fp buffer files with
  | zero => omega
  | succ fuel ih =>
    unfold extract_loop
    by_cases hlt : i < count
    · simp only [if_pos hlt]
      have hw : (i + 1) % 2 ^ 32 = i + 1 := Nat.mod_eq_of_lt (by omega)
      rw [hw]
      obtain ⟨data, pos⟩ := fp
      rw [read_write_slice data buffer pos _ _ (hr i (le_refl _) hlt)]
      rw [ih (i + 1) _ _ _ (by omega) (by omega) (by
        intro j h1 h2
        exact hr j (by omega) h2)]
      have hrange : List.range' i (count - i) = i :: List.range' (i + 1) (count - (i + 1)) := by
        rw [show count - i = (count - (i + 1)) + 1 by omega, List.range'_succ]
      simp only [hrange, List.map_cons, List.append_assoc, List.singleton_append, fread,
        fseek_set]
    · have h0 : count - i = 0 := by omega
      simp [if_neg hlt, h0]

/-! ## Entries of the packer, index by index -/

theorem le_end_pos (pos : Nat) (fs : List directory_entry) : pos ≤ end_pos pos fs := by
  induction fs generalizing pos with
  | nil => exact le_refl _
  | cons f fs ih => exact le_trans (le_trans (by omega) (le_alignUp _)) (ih _)

theorem offset_add_size_le_end_pos (pos : Nat) (es : List (mpk_entry × directory_entry))
    (p : mpk_entry × directory_entry) (hp : p ∈ fill pos es) :
    p.1.offset + p.1.size ≤ end_pos pos (es.map Prod.snd) := by
  induction es generalizing pos with
  | nil => simp [fill] at hp
  | cons e es ih =>
    obtain ⟨e, f⟩ := e
    simp only [fill, List.mem_cons] at hp
    simp only [List.map_cons, end_pos]
    rcases hp with rfl | hp
    · exact le_trans (le_alignUp _) (le_end_pos _ _)
    · exact ih _ hp

theorem fill_init_getElem (pos i : Nat) (files : List directory_entry) (j : Nat)
    (p : mpk_entry × directory_entry) (h : (fill pos (init_entries i files))[j]? = some p) :
    files[j]? = some p.2 ∧ p.1.compression = 0 ∧ p.1.entry_id = (i + j) % 2 ^ 32 ∧
      p.1.filename = (init_entry (i + j) p.2.name).filename ∧
      p.1.size = file_size p.2 ∧ p.1.size_decompressed = file_size p.2 := by
  induction files generalizing pos i j with
  | nil => simp [init_entries, fill] at h
  | cons f fs ih =>
    cases j with
    | zero =>
      simp only [init_entries, fill, List.getElem?_cons_zero, Option.some.injEq] at h
      subst h
      simp [init_entry]
    | succ j =>
      simp only [init_entries, fill, List.getElem?_cons_succ] at h
      have := ih _ _ _ h
      rw [show i + (j + 1) = i + 1 + j by omega]
      simpa using this

/-! ## Output names -/

theorem digitsLE_lt (fuel n d : Nat) (h : d ∈ digitsLE fuel n) : d < 10 := by
  induction fuel generalizing n with
  | zero => simp [digitsLE] at h
  | succ fuel ih =>
    unfold digitsLE at h
    split at h
    · simp at h
    · rcases List.mem_cons.mp h with rfl | h
      · omega
      · exact ih _ h

theorem digitsLE_value (fuel n : Nat) (h : n ≤ fuel) :
    (digitsLE fuel n).foldr (fun d acc => d + 10 * acc) 0 = n := by
  induction fuel generalizing n with
  | zero => simp [digitsLE]; omega
  | succ fuel ih =>
    unfold digitsLE
    split
    · next h0 => simp [h0]
    · simp only [List.foldr_cons]
      rw [ih _ (by omega)]
      omega

theorem to_string_digit (n : Nat) (b : Byte) (h : b ∈ to_string n) :
    48 ≤ b.val ∧ b.val < 58 := by
  unfold to_string at h
  split at h
  · simp only [List.mem_singleton] at h
    subst h
    decide
  · simp only [List.mem_map, List.mem_reverse] at h
    obtain ⟨d, hd, rfl⟩ := h
    have := digitsLE_lt _ _ _ hd
    simp only [Fin.ofNat, Fin.val_mk]
    omega

theorem to_string_value (n : Nat) :
    (to_string n).foldl (fun acc b => 10 * acc + (b.val - 48)) 0 = n := by
  unfold to_string
  split
  · next h => subst h; rfl
  · rw [List.foldl_map, List.foldl_reverse]
    have h1 := digitsLE_value n n (le_refl _)
    have h2 : ∀ l : List Nat, (∀ d ∈ l, d < 10) →
        List.foldr (fun (d : Nat) acc => 10 * acc + ((Fin.ofNat (48 + d) : Byte).val - 48)) 0 l
          = List.foldr (fun d acc => d + 10 * acc) 0 l := by
      intro l hl
      induction l with
      | nil => rfl
      | cons a l ih =>
        have ha := hl a (List.mem_cons_self _ _)
        simp only [List.foldr_cons]
        rw [ih (fun d hd => hl d (List.mem_cons_of_mem _ hd))]
        simp only [Fin.ofNat, Fin.val_mk]
        omega
    rw [h2 _ (fun d hd => digitsLE_lt _ _ _ hd), h1]

theorem to_string_injective (n m : Nat) (h : to_string n = to_string m) : n = m := by
  rw [← to_string_value n, ← to_string_value m, h]

theorem last_dot_suffix_head (first : Bool) (s : List Byte) :
    last_dot_suffix first s = [] ∨ ∃ t, last_dot_suffix first s = 46 :: t := by
  induction s generalizing first with
  | nil => left; rfl
  | cons b bs ih =>
    unfold last_dot_suffix
    split
    · exact ih _
    · split
      · next h => right; exact ⟨bs, by rw [h.1]⟩
      · left; rfl

theorem path_extension_head (p : List Byte) :
    path_extension p = [] ∨ ∃ t, path_extension p = 46 :: t := by
  unfold path_extension
  simp only
  split
  · left; rfl
  · exact last_dot_suffix_head _ _

/-- An output name is the base name, the decimal index and a suffix that
starts with a period. -/
theorem output_filename_eq (base_name : List Byte) (i : Nat) (e : mpk_entry) :
    ∃ t, output_filename base_name i e
      = base_name ++ to_string ((i + 1) % 2 ^ 32) ++ 46 :: t := by
  unfold output_filename
  simp only
  rcases path_extension_head (c_str e.filename.val) with h | ⟨t, h⟩
  · exact ⟨[98, 105, 110], by rw [h]; rfl⟩
  · exact ⟨t, by rw [h]; simp⟩

theorem digits_dot_split (a b x y : List Byte) (ha : ∀ c ∈ a, c ≠ 46) (hb : ∀ c ∈ b, c ≠ 46)
    (h : a ++ 46 :: x = b ++ 46 :: y) : a = b := by
  induction a generalizing b with
  | nil =>
    cases b with
    | nil => rfl
    | cons c b =>
      simp only [List.nil_append, List.cons_append, List.cons.injEq] at h
      exact absurd h.1.symm (hb c (List.mem_cons_self _ _))
  | cons c a ih =>
    cases b with
    | nil =>
      simp only [List.nil_append, List.cons_append, List.cons.injEq] at h
      exact absurd h.1 (ha c (List.mem_cons_self _ _))
    | cons d b =>
      simp only [List.cons_append, List.cons.injEq] at h
      rw [h.1, ih b (fun c hc => ha c (List.mem_cons_of_mem _ hc))
        (fun c hc => hb c (List.mem_cons_of_mem _ hc)) h.2]

theorem to_string_ne_dot (n : Nat) (c : Byte) (h : c ∈ to_string n) : c ≠ 46 := by
  have h1 := to_string_digit n c h
  intro hc
  subst hc
  have h2 : ((46 : Byte)).val = 46 := rfl
  omega

/-- Output names of distinct indices below `2 ^ 32 - 1` differ. -/
theorem output_filename_injective (base_name : List Byte) (i j : Nat) (e e' : mpk_entry)
    (hi : i + 1 < 2 ^ 32) (hj : j + 1 < 2 ^ 32)
    (h : output_filename base_name i e = output_filename base_name j e') : i = j := by
  obtain ⟨t, ht⟩ := output_filename_eq base_name i e
  obtain ⟨t', ht'⟩ := output_filename_eq base_name j e'
  rw [ht, ht', Nat.mod_eq_of_lt hi, Nat.mod_eq_of_lt hj, List.append_assoc, List.append_assoc]
    at h
  have h1 := digits_dot_split _ _ _ _ (to_string_ne_dot _) (to_string_ne_dot _)
    (List.append_cancel_left h)
  have := to_string_injective _ _ h1
  omega

/-! ## Unpacking a container made by the packer -/

theorem MPK_MAGIC_eq : MPK_MAGIC = 0x4B504D := by decide

theorem fread_header_create (dir : List directory_entry) :
    fread (zeros sizeof_header) sizeof_header (fopen_rb (create dir)) =
      ((make_header (list_files dir).length).bytes, ⟨create dir, sizeof_header⟩) := by
  have h1 : ((create dir).drop 0).take sizeof_header
      = (make_header (list_files dir).length).bytes := by
    rw [create_eq, List.drop_zero, List.append_assoc]
    exact List.take_left' (by rw [length_header_bytes, sizeof_header_eq])
  simp only [fread, fopen_rb, h1, length_header_bytes]
  rw [List.drop_of_length_le (by rw [length_zeros, sizeof_header_eq]), List.append_nil,
    sizeof_header_eq]

theorem read_header_create (dir : List directory_entry) :
    read_header (create dir) =
      ⟨MPK_MAGIC, 0x020000, (list_files dir).length % 2 ^ 64, CharArray.zero _⟩ := by
  rw [read_header, fread_header_create, header_ofBytes_bytes]
  simp [make_header, MPK_MAGIC_eq]

theorem fread_table_create (dir : List directory_entry) :
    fread (zeros ((list_files dir).length * sizeof_entry))
        ((list_files dir).length * sizeof_entry) ⟨create dir, sizeof_header⟩ =
      (table_bytes (create_entries dir),
        ⟨create dir, sizeof_header + (list_files dir).length * sizeof_entry⟩) := by
  have hlen := length_table_bytes (create_entries dir)
  rw [length_create_entries] at hlen
  have h1 : ((create dir).drop sizeof_header).take ((list_files dir).length * sizeof_entry)
      = table_bytes (create_entries dir) := by
    rw [create_eq, List.append_assoc, List.drop_left' (by
      rw [length_header_bytes, sizeof_header_eq])]
    exact List.take_left' hlen
  simp only [fread, h1, hlen]
  rw [List.drop_of_length_le (by rw [length_zeros]), List.append_nil]

theorem create_payloads_inRange (dir : List directory_entry)
    (hpos : ftell (create_payloads dir).2 < 2 ^ 63) (j : Nat)
    (p : mpk_entry × directory_entry) (hp : (create_payloads dir).1[j]? = some p) :
    p.1.inRange := by
  rw [create_payloads_eq] at hp hpos
  simp only [ftell] at hp hpos
  have h1 := fill_init_getElem _ _ _ _ _ hp
  have h2 := offset_add_size_le_end_pos _ _ _ (List.getElem?_mem hp)
  rw [map_snd_init_entries] at h2
  obtain ⟨-, hc, hid, -, hs, hd⟩ := h1
  refine ⟨by rw [hc]; norm_num, by rw [hid]; exact Nat.mod_lt _ (by norm_num), ?_, ?_, ?_⟩
  · omega
  · omega
  · rw [hd, ← hs]; omega

theorem entry_at_create (dir : List directory_entry)
    (hpos : ftell (create_payloads dir).2 < 2 ^ 63) (j : Nat)
    (p : mpk_entry × directory_entry) (hp : (create_payloads dir).1[j]? = some p) :
    entry_at (table_bytes (create_entries dir)) j = p.1 := by
  have h1 : (create_entries dir)[j]? = some p.1 := by
    simp [create_entries, List.getElem?_map, hp]
  have h2 := entry_at_table_bytes _ [] _ _ h1
  rw [List.append_nil] at h2
  rw [h2, norm_of_inRange _ (create_payloads_inRange dir hpos j p hp)]

theorem length_create_payloads (dir : List directory_entry) :
    (create_payloads dir).1.length = (list_files dir).length := by
  rw [create_payloads_eq, length_fill, length_init_entries]

/-- The files the unpacker writes for a container made by the packer: one per
entry, in entry order, named by index and holding the bytes of the input
file. -/
theorem extract_create (dir : List directory_entry) (outdir base_name : List Byte) (fuel : Nat)
    (hN : (list_files dir).length < 2 ^ 32)
    (hpos : ftell (create_payloads dir).2 < 2 ^ 63) (hfuel : (list_files dir).length < fuel) :
    extract fuel outdir base_name (create dir) =
      some (Exit.EXIT_SUCCESS, ⟨[outdir],
        (List.range' 0 (list_files dir).length).map fun j =>
          (output_filename base_name j (((create_payloads dir).1.map Prod.fst).getD j
              ⟨0, 0, 0, 0, 0, CharArray.zero _⟩),
            (((create_payloads dir).1.map fun p => p.2.contents).getD j []))⟩) := by
  have hmod : (list_files dir).length % 2 ^ 64 = (list_files dir).length :=
    Nat.mod_eq_of_lt (by omega)
  have hhdr := read_header_create dir
  rw [read_header, hmod] at hhdr
  unfold extract
  simp only [hhdr, CHECK, if_true]
  rw [fread_header_create, fread_table_create]
  simp only
  have key : ∀ j, j < (list_files dir).length →
      entry_at (table_bytes (create_entries dir)) j
          = ((create_payloads dir).1.map Prod.fst).getD j ⟨0, 0, 0, 0, 0, CharArray.zero _⟩ ∧
        slice (create dir) (entry_at (table_bytes (create_entries dir)) j).offset
            (entry_at (table_bytes (create_entries dir)) j).size
          = ((create_payloads dir).1.map fun p => p.2.contents).getD j [] ∧
        (slice (create dir) (entry_at (table_bytes (create_entries dir)) j).offset
            (entry_at (table_bytes (create_entries dir)) j).size).length
          = (entry_at (table_bytes (create_entries dir)) j).size := by
    intro j hj
    have hjl : j < (create_payloads dir).1.length := by rw [length_create_payloads]; exact hj
    obtain ⟨p, hp⟩ : ∃ p, (create_payloads dir).1[j]? = some p :=
      ⟨_, List.getElem?_eq_getElem hjl⟩
    have he := entry_at_create dir hpos j _ hp
    have hs := slice_create dir _ (List.getElem?_mem hp)
    have hsz : p.1.size = file_size p.2 := by
      have hp' := hp
      rw [create_payloads_eq] at hp'
      exact (fill_init_getElem _ _ _ _ _ hp').2.2.2.2.1
    refine ⟨?_, ?_, ?_⟩
    · rw [he]; simp [List.getD, hp]
    · rw [he, hs]; simp [List.getD, hp]
    · rw [he, hs, hsz]; rfl
  rw [extract_loop_eq base_name (table_bytes (create_entries dir)) _ hN fuel 0
    ⟨create dir, sizeof_header + (list_files dir).length * sizeof_entry⟩ [] []
    (Nat.zero_le _) (by omega) (fun j _ hj => (key j hj).2.2)]
  simp only [Option.map_some', List.nil_append, Nat.sub_zero, Option.some.injEq, Prod.mk.injEq,
    true_and, Effects.mk.injEq]
  apply List.map_congr_left
  intro j hj
  have hj' : j < (list_files dir).length := by
    have := (List.mem_range'_1.mp hj).2
    omega
  rw [(key j hj').1.symm, (key j hj').2.1]

/-! ## Sorting the directory listing -/

theorem path_lt_asymm (a b : List Byte) (h : path_lt a b = true) : path_lt b a = false := by
  induction a generalizing b with
  | nil => cases b <;> simp [path_lt] at h ⊢
  | cons x a ih =>
    cases b with
    | nil => simp [path_lt] at h
    | cons y b =>
      simp only [path_lt] at h ⊢
      by_cases h1 : x < y
      · simp [h1, lt_asymm h1]
      · by_cases h2 : y < x
        · simp [h1, h2] at h
        · simp only [h1, h2, if_false] at h ⊢
          exact ih b h

theorem path_le_trans (a b c : List Byte) (hab : path_lt b a = false)
    (hbc : path_lt c b = false) : path_lt c a = false := by
  induction a generalizing b c with
  | nil => cases c <;> simp [path_lt]
  | cons x a ih =>
    cases b with
    | nil => simp [path_lt] at hab
    | cons y b =>
      cases c with
      | nil => simp [path_lt] at hbc
      | cons z c =>
        simp only [path_lt] at hab hbc ⊢
        by_cases h1 : y < x
        · simp [h1] at hab
        by_cases h2 : z < y
        · simp [h2] at hbc
        by_cases h3 : x < y
        · have h4 : ¬ z < x := fun h => h2 (lt_trans h h3)
          have h5 : x < z := lt_of_lt_of_le h3 (not_lt.mp h2)
          simp [h4, h5]
        · have hxy : x = y := le_antisymm (not_lt.mp h1) (not_lt.mp h3)
          subst hxy
          simp only [h1, if_false] at hab
          by_cases h4 : x < z
          · simp [h4, lt_asymm h4]
          · have hxz : x = z := le_antisymm (not_lt.mp h2) (not_lt.mp h4)
            subst hxz
            simp only [h2, if_false] at hbc ⊢
            exact ih b c hab hbc

theorem perm_sort_insert (f : directory_entry) (l : List directory_entry) :
    (sort_insert f l).Perm (f :: l) := by
  induction l with
  | nil => exact List.Perm.refl _
  | cons g gs ih =>
    unfold sort_insert
    split
    · exact (List.Perm.cons g ih).trans (List.Perm.swap f g gs)
    · exact List.Perm.refl _

theorem perm_sort (l : List directory_entry) : (sort l).Perm l := by
  induction l with
  | nil => exact List.Perm.refl _
  | cons f fs ih =>
    simp only [sort, List.foldr_cons]
    exact (perm_sort_insert f _).trans (List.Perm.cons f ih)

theorem sorted_sort_insert (f : directory_entry) (l : List directory_entry)
    (h : l.Pairwise fun a b => path_lt b.name a.name = false) :
    (sort_insert f l).Pairwise fun a b => path_lt b.name a.name = false := by
  induction l with
  | nil => simp [sort_insert]
  | cons g gs ih =>
    unfold sort_insert
    rw [List.pairwise_cons] at h
    split
    · next hlt =>
      rw [List.pairwise_cons]
      refine ⟨?_, ih h.2⟩
      intro x hx
      rcases List.mem_cons.mp ((perm_sort_insert f gs).mem_iff.mp hx) with rfl | hx
      · exact path_lt_asymm _ _ hlt
      · exact h.1 x hx
    · next hlt =>
      have hfg : path_lt g.name f.name = false := by simpa using hlt
      rw [List.pairwise_cons]
      refine ⟨?_, List.pairwise_cons.mpr h⟩
      intro x hx
      rcases List.mem_cons.mp hx with rfl | hx
      · exact hfg
      · exact path_le_trans _ _ _ hfg (h.1 x hx)

theorem sorted_sort (l : List directory_entry) :
    (sort l).Pairwise fun a b => path_lt b.name a.name = false := by
  induction l with
  | nil => simp [sort]
  | cons f fs ih =>
    simp only [sort, List.foldr_cons]
    exact sorted_sort_insert f _ ih

/-! ## Offsets of the packer -/

theorem offset_mod_of_mem_fill (pos : Nat) (es : List (mpk_entry × directory_entry))
    (h : pos % 2048 = 0) (p : mpk_entry × directory_entry) (hp : p ∈ fill pos es) :
    p.1.offset % 2048 = 0 := by
  induction es generalizing pos with
  | nil => simp [fill] at hp
  | cons e es ih =>
    obtain ⟨e, f⟩ := e
    simp only [fill, List.mem_cons] at hp
    rcases hp with rfl | hp
    · exact h
    · exact ih _ (alignUp_mod _) hp

theorem fill_ordered (pos : Nat) (es : List (mpk_entry × directory_entry)) (i j : Nat)
    (p q : mpk_entry × directory_entry) (hij : i < j) (hp : (fill pos es)[i]? = some p)
    (hq : (fill pos es)[j]? = some q) : p.1.offset + p.1.size ≤ q.1.offset := by
  induction es generalizing pos i j with
  | nil => simp [fill] at hp
  | cons e es ih =>
    obtain ⟨e, f⟩ := e
    cases j with
    | zero => omega
    | succ j =>
      simp only [fill, List.getElem?_cons_succ] at hq
      cases i with
      | zero =>
        simp only [fill, List.getElem?_cons_zero, Option.some.injEq] at hp
        subst hp
        exact le_trans (le_alignUp _) (le_offset_of_mem_fill _ _ _ (List.getElem?_mem hq))
      | succ i =>
        simp only [fill, List.getElem?_cons_succ] at hp
        exact ih _ i j (by omega) hp hq

theorem alignUp_mono (a b : Nat) (h : a ≤ b) : alignUp a 2048 ≤ alignUp b 2048 := by
  unfold alignUp
  omega

/-- A non-empty payload ends within the data the payload loop has written. -/
theorem nonempty_end_le (len pos : Nat) (es : List (mpk_entry × directory_entry))
    (h : len ≤ pos) (p : mpk_entry × directory_entry) (hp : p ∈ fill pos es)
    (hne : 0 < p.1.size) :
    p.1.offset + p.1.size ≤ len + (payload_data len pos (es.map Prod.snd)).length := by
  induction es generalizing len pos with
  | nil => simp [fill] at hp
  | cons e es ih =>
    obtain ⟨e, f⟩ := e
    simp only [fill, List.mem_cons] at hp
    simp only [List.map_cons, payload_data]
    by_cases hc : f.contents = []
    · rw [if_pos hc]
      rcases hp with rfl | hp
      · simp [file_size, hc] at hne
      · exact ih _ _ (le_trans (by omega) (le_alignUp _)) hp
    · rw [if_neg hc]
      simp only [List.length_append, length_zeros]
      rcases hp with rfl | hp
      · simp only [file_size]
        omega
      · have := ih (pos + file_size f) _ (le_alignUp _) hp
        simp only [file_size] at this ⊢
        omega

/-- Every payload, empty or not, ends at or before the first block boundary
after the data written (`x` is the end of the entry table). -/
theorem end_le_alignUp (len pos x : Nat) (es : List (mpk_entry × directory_entry))
    (h : pos = alignUp (max len x) 2048) (p : mpk_entry × directory_entry)
    (hp : p ∈ fill pos es) :
    p.1.offset + p.1.size
      ≤ alignUp (max (len + (payload_data len pos (es.map Prod.snd)).length) x) 2048 := by
  induction es generalizing len pos with
  | nil => simp [fill] at hp
  | cons e es ih =>
    obtain ⟨e, f⟩ := e
    simp only [fill, List.mem_cons] at hp
    simp only [List.map_cons, payload_data]
    have hle : max len x ≤ pos := h ▸ le_alignUp _
    by_cases hc : f.contents = []
    · have hs : file_size f = 0 := by simp [file_size, hc]
      rw [if_pos hc, hs, Nat.add_zero]
      have hpos : alignUp pos 2048 = pos := alignUp_of_mod _ (h ▸ alignUp_mod _)
      rw [hpos]
      rcases hp with rfl | hp
      · simp only [hs, Nat.add_zero]
        rw [h]
        exact alignUp_mono _ _ (by omega)
      · rw [hs, Nat.add_zero, hpos] at hp
        exact ih len pos h hp
    · rw [if_neg hc]
      simp only [List.length_append, length_zeros]
      rcases hp with rfl | hp
      · simp only [file_size]
        exact le_trans (by omega) (le_alignUp _)
      · have := ih (pos + file_size f) _ (by
          rw [Nat.max_eq_left (by omega)]) hp
        simp only [file_size] at this ⊢
        rw [show len + (pos - len + f.contents.length +
            (payload_data (pos + f.contents.length) (alignUp (pos + f.contents.length) 2048)
              (List.map Prod.snd es)).length)
          = pos + f.contents.length +
            (payload_data (pos + f.contents.length) (alignUp (pos + f.contents.length) 2048)
              (List.map Prod.snd es)).length by omega]
        exact this

theorem length_create (dir : List directory_entry) :
    (create dir).length = max (sizeof_header + (list_files dir).length * sizeof_entry)
      (sizeof_header + (payload_data sizeof_header
        (alignUp (sizeof_header + (list_files dir).length * sizeof_entry) 2048)
        (list_files dir)).length) := by
  have hlen := length_table_bytes (create_entries dir)
  rw [length_create_entries] at hlen
  rw [create_eq]
  simp only [List.length_append, List.length_drop, hlen, length_header_bytes, sizeof_header_eq]
  omega

/-! ## The table as the unpacker reads it -/

theorem table_bytes_take (es : List mpk_entry) (n : Nat) :
    (table_bytes es).take (n * sizeof_entry) = table_bytes (es.take n) := by
  induction es generalizing n with
  | nil => simp [table_bytes]
  | cons e es ih =>
    cases n with
    | zero => simp [table_bytes]
    | succ n =>
      simp only [table_bytes, List.map_cons, List.flatten_cons, List.take_succ_cons] at ih ⊢
      rw [show (n + 1) * sizeof_entry = e.bytes.length + n * sizeof_entry by
        rw [length_entry_bytes, sizeof_entry_eq]; ring]
      rw [List.take_append, ih]

theorem read_entries_create (dir : List directory_entry) :
    read_entries (create dir) =
      ((create_entries dir).take ((list_files dir).length % 2 ^ 64)).map mpk_entry.norm := by
  have hhdr := read_header_create dir
  rw [read_header] at hhdr
  have hlen := length_table_bytes (create_entries dir)
  rw [length_create_entries] at hlen
  have hn : (list_files dir).length % 2 ^ 64 ≤ (list_files dir).length := Nat.mod_le _ _
  have hlen' := length_table_bytes
    ((create_entries dir).take ((list_files dir).length % 2 ^ 64))
  rw [List.length_take, length_create_entries, Nat.min_eq_left hn] at hlen'
  have h1 : ((create dir).drop sizeof_header).take
      ((list_files dir).length % 2 ^ 64 * sizeof_entry)
      = table_bytes ((create_entries dir).take ((list_files dir).length % 2 ^ 64)) := by
    rw [create_eq, List.append_assoc, List.drop_left' (by
      rw [length_header_bytes, sizeof_header_eq])]
    rw [List.take_append_of_le_length (by
      rw [hlen]; exact Nat.mul_le_mul_right _ hn)]
    exact table_bytes_take _ _
  unfold read_entries
  simp only [hhdr]
  rw [fread_header_create]
  simp only [fread, h1, hlen']
  rw [List.drop_of_length_le (by rw [length_zeros]), List.append_nil]
  apply List.ext_getElem?
  intro i
  simp only [List.getElem?_map, List.getElem?_range']
  by_cases hi : i < (list_files dir).length % 2 ^ 64
  · have hi' : i < ((create_entries dir).take ((list_files dir).length % 2 ^ 64)).length := by
      rw [List.length_take, length_create_entries]; omega
    rw [List.getElem?_range hi, List.getElem?_eq_getElem hi']
    simp only [Option.map_some', Option.some.injEq]
    have := entry_at_table_bytes _ [] i _ (List.getElem?_eq_getElem hi')
    rw [List.append_nil] at this
    exact this
  · have hi' : ((create_entries dir).take ((list_files dir).length % 2 ^ 64)).length ≤ i := by
      rw [List.length_take, length_create_entries]; omega
    rw [List.getElem?_eq_none (by simpa using hi), List.getElem?_eq_none hi']
    rfl

/-! ## Facts shared by the claims -/

theorem length_list_files (dir : List directory_entry) :
    (list_files dir).length = (dir.filter fun e => e.type = file_type.regular).length :=
  (perm_sort _).length_eq

theorem slice_table_bytes (es : List mpk_entry) (rest : List Byte) (i : Nat) (e : mpk_entry)
    (h : es[i]? = some e) :
    slice (table_bytes es ++ rest) (i * sizeof_entry) sizeof_entry = e.bytes := by
  induction es generalizing i with
  | nil => simp at h
  | cons a es ih =>
    cases i with
    | zero =>
      simp only [List.getElem?_cons_zero, Option.some.injEq] at h
      subst h
      simp only [slice, table_bytes, List.map_cons, List.flatten_cons, Nat.zero_mul,
        List.drop_zero, List.append_assoc]
      exact List.take_left' (by rw [length_entry_bytes, sizeof_entry_eq])
    | succ i =>
      simp only [List.getElem?_cons_succ] at h
      rw [← ih i h]
      simp only [slice, table_bytes, List.map_cons, List.flatten_cons, List.append_assoc]
      rw [show (i + 1) * sizeof_entry = a.bytes.length + i * sizeof_entry by
        rw [length_entry_bytes, sizeof_entry_eq]; ring]
      rw [← List.drop_drop, List.drop_left]

/-- Record `i` of the packer lies at `sizeof_header + i * sizeof_entry` in the
container. -/
theorem slice_create_entry (dir : List directory_entry) (i : Nat) (e : mpk_entry)
    (h : (create_entries dir)[i]? = some e) :
    slice (create dir) (sizeof_header + i * sizeof_entry) sizeof_entry = e.bytes := by
  rw [← slice_table_bytes _ ((payload_data sizeof_header
      (alignUp (sizeof_header + (list_files dir).length * sizeof_entry) 2048)
      (list_files dir)).drop ((list_files dir).length * sizeof_entry)) i e h]
  rw [create_eq, List.append_assoc]
  simp only [slice]
  rw [← List.drop_drop, List.drop_left' (by rw [length_header_bytes, sizeof_header_eq])]

theorem slice_create_table (dir : List directory_entry) :
    slice (create dir) sizeof_header ((list_files dir).length * sizeof_entry)
      = table_bytes (create_entries dir) := by
  have hlen := length_table_bytes (create_entries dir)
  rw [length_create_entries] at hlen
  rw [create_eq, List.append_assoc]
  simp only [slice]
  rw [List.drop_left' (by rw [length_header_bytes, sizeof_header_eq])]
  exact List.take_left' hlen

theorem take_create_header (dir : List directory_entry) :
    (create dir).take sizeof_header = (make_header (list_files dir).length).bytes := by
  rw [create_eq, List.append_assoc]
  exact List.take_left' (by rw [length_header_bytes, sizeof_header_eq])

theorem create_entries_getElem (dir : List directory_entry) (i : Nat) (e : mpk_entry)
    (h : (create_entries dir)[i]? = some e) :
    ∃ p, (create_payloads dir).1[i]? = some p ∧ p.1 = e := by
  simp only [create_entries, List.getElem?_map, Option.map_eq_some'] at h
  exact h

theorem mem_create_entries (dir : List directory_entry) (e : mpk_entry)
    (h : e ∈ create_entries dir) :
    ∃ p, p ∈ fill (alignUp (sizeof_header + (list_files dir).length * sizeof_entry) 2048)
      (init_entries 0 (list_files dir)) ∧ p.1 = e := by
  simp only [create_entries, create_payloads_eq, List.mem_map] at h
  exact h

/-- With a count below `2 ^ 32`, `extract_loop` ends and gives one file per
index, named by that index. -/
theorem extract_loop_names (base_name table : List Byte) (count : Nat) (hc : count < 2 ^ 32)
    (fuel i : Nat) (fp : FILE) (buffer : List Byte) (files : List (List Byte × List Byte))
    (hi : i ≤ count) (hf : count - i < fuel) :
    ∃ out, extract_loop base_name table count fuel i fp buffer files = some (files ++ out) ∧
      out.map Prod.fst = (List.range' i (count - i)).map fun j =>
        output_filename base_name j (entry_at table j) := by
  induction fuel generalizing i fp buffer files with
  | zero => omega
  | succ fuel ih =>
    unfold extract_loop
    by_cases hlt : i < count
    · simp only [if_pos hlt]
      have hw : (i + 1) % 2 ^ 32 = i + 1 := Nat.mod_eq_of_lt (by omega)
      rw [hw]
      obtain ⟨out, h1, h2⟩ := ih (i + 1)
        (fread (resize buffer (entry_at table i).size) (entry_at table i).size
          (fseek_set fp (entry_at table i).offset)).2
        (fread (resize buffer (entry_at table i).size) (entry_at table i).size
          (fseek_set fp (entry_at table i).offset)).1
        (files ++ [(output_filename base_name i (entry_at table i),
          (fwrite (List.take (entry_at table i).size
            (fread (resize buffer (entry_at table i).size) (entry_at table i).size
              (fseek_set fp (entry_at table i).offset)).1) fopen_wb).data)])
        (by omega) (by omega)
      refine ⟨_ :: out, by rw [h1, List.append_assoc]; rfl, ?_⟩
      rw [show count - i = (count - (i + 1)) + 1 by omega, List.range'_succ]
      simp only [List.map_cons, h2]
    · have h0 : count - i = 0 := by omega
      exact ⟨[], by simp [if_neg hlt], by simp [h0]⟩

/-- Unpacking a container made by the packer from fewer than `2 ^ 32` files
ends successfully and writes one file per entry, all with different names. -/
theorem unpack_create_count (dir : List directory_entry) (outdir base_name : List Byte)
    (fuel : Nat) (hN : (list_files dir).length < 2 ^ 32)
    (hfuel : (list_files dir).length < fuel) :
    ∃ files, extract fuel outdir base_name (create dir)
        = some (Exit.EXIT_SUCCESS, ⟨[outdir], files⟩) ∧
      files.length = (list_files dir).length ∧ (files.map Prod.fst).Nodup := by
  have hmod : (list_files dir).length % 2 ^ 64 = (list_files dir).length :=
    Nat.mod_eq_of_lt (by omega)
  have hhdr := read_header_create dir
  rw [read_header, hmod] at hhdr
  obtain ⟨out, h1, h2⟩ := extract_loop_names base_name (table_bytes (create_entries dir))
    (list_files dir).length hN fuel 0
    ⟨create dir, sizeof_header + (list_files dir).length * sizeof_entry⟩ [] []
    (Nat.zero_le _) (by omega)
  refine ⟨out, ?_, ?_, ?_⟩
  · unfold extract
    simp only [hhdr, CHECK, if_true]
    rw [fread_header_create, fread_table_create]
    simp only [h1, List.nil_append, Option.map_some']
  · rw [← List.length_map out Prod.fst, h2]
    simp
  · rw [h2]
    refine List.Nodup.map_on ?_ (List.nodup_range' _ _)
    intro x hx y hy hxy
    have hx' := (List.mem_range'_1.mp hx).2
    have hy' := (List.mem_range'_1.mp hy).2
    exact output_filename_injective base_name x y _ _ (by omega) (by omega) hxy

/-- The files the unpacker writes for a container made by the packer. -/
theorem unpack_create (dir : List directory_entry) (outdir base_name : List Byte) (fuel : Nat)
    (hN : (list_files dir).length < 2 ^ 32)
    (hpos : ftell (create_payloads dir).2 < 2 ^ 63) (hfuel : (list_files dir).length < fuel) :
    ∃ files, extract fuel outdir base_name (create dir)
        = some (Exit.EXIT_SUCCESS, ⟨[outdir], files⟩) ∧
      files.length = (list_files dir).length ∧
      (files.map Prod.fst).Nodup ∧
      ∀ i f, (list_files dir)[i]? = some f →
        files[i]? = some (output_filename base_name i (init_entry i f.name), f.contents) := by
  refine ⟨_, extract_create dir outdir base_name fuel hN hpos hfuel, by simp, ?_, ?_⟩
  · rw [List.map_map]
    refine List.Nodup.map_on ?_ (List.nodup_range' _ _)
    intro x hx y hy hxy
    have hx' := (List.mem_range'_1.mp hx).2
    have hy' := (List.mem_range'_1.mp hy).2
    exact output_filename_injective base_name x y _ _ (by omega) (by omega) hxy
  · intro i f hf
    have hi : i < (list_files dir).length := by
      by_contra hc
      rw [List.getElem?_eq_none (by omega)] at hf
      exact Option.noConfusion hf
    have hil : i < (create_payloads dir).1.length := by rw [length_create_payloads]; exact hi
    obtain ⟨p, hp⟩ : ∃ p, (create_payloads dir).1[i]? = some p :=
      ⟨_, List.getElem?_eq_getElem hil⟩
    have hp' := hp
    rw [create_payloads_eq] at hp'
    obtain ⟨h1, -, -, h4, -, -⟩ := fill_init_getElem _ _ _ _ _ hp'
    rw [hf, Option.some.injEq] at h1
    rw [Nat.zero_add] at h4
    have e1 : ((create_payloads dir).1.map Prod.fst).getD i ⟨0, 0, 0, 0, 0, CharArray.zero _⟩
        = p.1 := by
      rw [List.getD_eq_getElem?_getD, List.getElem?_map, hp]; rfl
    have e2 : ((create_payloads dir).1.map fun p => p.2.contents).getD i [] = p.2.contents := by
      rw [List.getD_eq_getElem?_getD, List.getElem?_map, hp]; rfl
    rw [List.getElem?_map, List.getElem?_range' _ _ hi]
    simp only [Option.map_some', Option.some.injEq, Nat.zero_add, Nat.one_mul, e1, e2,
      Prod.mk.injEq]
    refine ⟨?_, by rw [h1]⟩
    simp only [output_filename, h4, h1]

theorem write_val {n : Nat} (a : CharArray n) (i : Nat) (bs : List Byte)
    (h : i + bs.length ≤ n) :
    (a.write i bs).val = a.val.take i ++ bs ++ a.val.drop (i + bs.length) := by
  have hl : (a.val.take i ++ bs ++ a.val.drop (i + bs.length)).length = n := by
    simp only [List.length_append, List.length_take, List.length_drop, a.property]
    omega
  simp only [CharArray.write]
  rw [List.take_of_length_le (by rw [hl]), hl, Nat.sub_self]
  simp [zeros]

theorem write_write_val (pre : List Byte) (c : Nat) (hc : pre.length = c) (hle : c ≤ 223) :
    (((CharArray.zero 0xE0).write 0 pre).write c [0]).val = pre ++ 0 :: zeros (223 - c) := by
  have h1 : ((CharArray.zero 0xE0).write 0 pre).val = pre ++ zeros (0xE0 - c) := by
    rw [write_val _ _ _ (by rw [hc]; omega), hc]
    simp only [CharArray.zero, zeros, List.take_zero, List.nil_append, Nat.zero_add,
      List.drop_replicate]
  rw [write_val _ _ _ (by simp only [List.length_singleton]; omega), h1]
  rw [List.take_left' hc, List.length_singleton, ← List.drop_drop, List.drop_left' hc]
  simp only [zeros, List.drop_replicate, List.append_assoc, List.singleton_append]
  rw [show 224 - c - 1 = 223 - c by omega]

theorem init_entry_filename (i : Nat) (name : List Byte) :
    (init_entry i name).filename.val
      = name.take (min name.length 223) ++ 0 :: zeros (223 - min name.length 223) :=
  write_write_val _ _ (by rw [List.length_take]; omega) (Nat.min_le_right _ _)

/-! # The claims -/

/-- C1. Round trip.  Let the number of regular files of the directory fit the
unpacker's 32-bit counter and the packer's stream positions fit a `long`.
The list the packer works on is the regular files of the directory in sorted
order; unpacking the packed container ends successfully with as many output
files as there are regular files, all with different names, and output file
`i` is named by the index `i + 1` and holds exactly the bytes of the `i`-th
file in sorted order (so the table rewrite has not touched any payload). -/
theorem round_trip (dir : List directory_entry) (outdir base_name : List Byte) (fuel : Nat)
    (hN : (list_files dir).length < 2 ^ 32)
    (hpos : ftell (create_payloads dir).2 < 2 ^ 63)
    (hfuel : (list_files dir).length < fuel) :
    (list_files dir).Perm (dir.filter fun e => e.type = file_type.regular) ∧
    (list_files dir).Pairwise (fun a b => path_lt b.name a.name = false) ∧
    ∃ files, extract fuel outdir base_name (create dir)
        = some (Exit.EXIT_SUCCESS, ⟨[outdir], files⟩) ∧
      files.length = (list_files dir).length ∧
      (files.map Prod.fst).Nodup ∧
      ∀ i f, (list_files dir)[i]? = some f →
        ∃ ext, files[i]? = some (base_name ++ to_string (i + 1) ++ ext, f.contents) := by
  refine ⟨perm_sort _, sorted_sort _, ?_⟩
  obtain ⟨files, h1, h2, h3, h4⟩ := unpack_create dir outdir base_name fuel hN hpos hfuel
  refine ⟨files, h1, h2, h3, ?_⟩
  intro i f hf
  have hi : i < (list_files dir).length := by
    by_contra hc
    rw [List.getElem?_eq_none (by omega)] at hf
    exact Option.noConfusion hf
  obtain ⟨t, ht⟩ := output_filename_eq base_name i (init_entry i f.name)
  rw [Nat.mod_eq_of_lt (by omega)] at ht
  exact ⟨46 :: t, by rw [h4 i f hf, ht]⟩

set_option maxRecDepth 1000000 in
/-- C1 at the directory `scenario`, unpacked with base name `test`. -/
theorem round_trip_witness :
    (list_files scenario).length < 2 ^ 32 ∧ ftell (create_payloads scenario).2 < 2 ^ 63 ∧
    (list_files scenario).length < 3 ∧
    ((list_files scenario).Perm (scenario.filter fun e => e.type = file_type.regular) ∧
    (list_files scenario).Pairwise (fun a b => path_lt b.name a.name = false) ∧
    ∃ files, extract 3 test_stem test_stem (create scenario)
        = some (Exit.EXIT_SUCCESS, ⟨[test_stem], files⟩) ∧
      files.length = (list_files scenario).length ∧
      (files.map Prod.fst).Nodup ∧
      ∀ i f, (list_files scenario)[i]? = some f →
        ∃ ext, files[i]? = some (test_stem ++ to_string (i + 1) ++ ext, f.contents)) :=
  ⟨by decide, by decide, by decide,
    round_trip scenario test_stem test_stem 3 (by decide) (by decide) (by decide)⟩

/-- C2. Every entry record of a container made by the packer has an offset
that is a multiple of 2048: both the records the packer writes and the records
read back from the bytes of the container. -/
theorem offsets_aligned (dir : List directory_entry) :
    (∀ e ∈ create_entries dir, e.offset % 2048 = 0) ∧
    (∀ e ∈ read_entries (create dir), e.offset % 2048 = 0) := by
  have h1 : ∀ e ∈ create_entries dir, e.offset % 2048 = 0 := by
    intro e he
    obtain ⟨p, hp, rfl⟩ := mem_create_entries dir e he
    exact offset_mod_of_mem_fill _ _ (alignUp_mod _) p hp
  refine ⟨h1, ?_⟩
  intro e he
  rw [read_entries_create] at he
  obtain ⟨e', he', rfl⟩ := List.mem_map.mp he
  have := h1 e' (List.mem_of_mem_take he')
  simp only [mpk_entry.norm]
  omega

set_option maxRecDepth 1000000 in
/-- C2 at the entry of `b.txt` in the container of `scenario`. -/
theorem offsets_aligned_witness :
    b_txt_entry ∈ create_entries scenario ∧ b_txt_entry ∈ read_entries (create scenario) ∧
    b_txt_entry.offset % 2048 = 0 :=
  have h : b_txt_entry ∈ read_entries (create scenario) := by
    rw [read_entries_create]
    decide
  ⟨by decide, h, (offsets_aligned scenario).2 b_txt_entry h⟩

set_option maxRecDepth 1000000 in
/-- C3 fails for a directory holding one empty file: the entry's offset is
2048 while the container has 320 bytes. -/
theorem end_within_file_fails :
    ¬ ∀ e ∈ create_entries [a_dat], e.offset + e.size ≤ (create [a_dat]).length := by
  intro h
  have h1 : a_dat_entry ∈ create_entries [a_dat] := by decide
  have h2 := h a_dat_entry h1
  revert h2
  decide

/-- C3, amended.  In a container made by the packer, every entry at or before
a non-empty entry ends within the container, and every entry ends at or before
the first multiple of 2048 that is not below the length of the container. -/
theorem end_within_file (dir : List directory_entry) :
    (∀ (i j : Nat) (p q : mpk_entry), i ≤ j → (create_entries dir)[i]? = some p →
      (create_entries dir)[j]? = some q → 0 < q.size →
      p.offset + p.size ≤ (create dir).length) ∧
    (∀ e ∈ create_entries dir, e.offset + e.size ≤ alignUp (create dir).length 2048) := by
  have hH : sizeof_header ≤
      alignUp (sizeof_header + (list_files dir).length * sizeof_entry) 2048 :=
    le_trans (by omega) (le_alignUp _)
  constructor
  · intro i j p q hij hp hq hne
    obtain ⟨p', hp', rfl⟩ := create_entries_getElem dir i p hp
    obtain ⟨q', hq', rfl⟩ := create_entries_getElem dir j q hq
    rw [create_payloads_eq] at hp' hq'
    simp only at hp' hq'
    have h1 := nonempty_end_le sizeof_header _ _ hH q' (List.getElem?_mem hq') hne
    rw [map_snd_init_entries] at h1
    have h2 : p'.1.offset + p'.1.size ≤ q'.1.offset + q'.1.size := by
      rcases Nat.lt_or_eq_of_le hij with hlt | heq
      · exact le_trans (fill_ordered _ _ i j p' q' hlt hp' hq') (by omega)
      · subst heq
        rw [hp', Option.some.injEq] at hq'
        rw [hq']
    rw [length_create]
    omega
  · intro e he
    obtain ⟨p, hp, rfl⟩ := mem_create_entries dir e he
    have h1 := end_le_alignUp sizeof_header _
      (sizeof_header + (list_files dir).length * sizeof_entry) _
      (by rw [Nat.max_eq_right (by omega)]) p hp
    rw [map_snd_init_entries] at h1
    rw [length_create, Nat.max_comm]
    exact h1

set_option maxRecDepth 1000000 in
/-- C3, amended, at `scenario`: the empty `a.dat` precedes the non-empty
`b.txt`. -/
theorem end_within_file_witness :
    0 ≤ 1 ∧ (create_entries scenario)[0]? = some a_dat_entry ∧
    (create_entries scenario)[1]? = some b_txt_entry ∧ 0 < b_txt_entry.size ∧
    a_dat_entry.offset + a_dat_entry.size ≤ (create scenario).length ∧
    a_dat_entry ∈ create_entries [a_dat] ∧
    a_dat_entry.offset + a_dat_entry.size ≤ alignUp (create [a_dat]).length 2048 :=
  ⟨by decide, by decide, by decide, by decide,
    (end_within_file scenario).1 0 1 a_dat_entry b_txt_entry (by decide) (by decide) (by decide)
      (by decide),
    by decide, (end_within_file [a_dat]).2 a_dat_entry (by decide)⟩

/-- C4. In a container made by the packer the payload regions do not overlap:
an earlier entry ends at or before the start of every later entry, and every
payload starts at or after the end of the header and the entry table. -/
theorem payloads_disjoint (dir : List directory_entry) :
    (∀ (i j : Nat) (p q : mpk_entry), i < j → (create_entries dir)[i]? = some p →
      (create_entries dir)[j]? = some q → p.offset + p.size ≤ q.offset) ∧
    (∀ e ∈ create_entries dir,
      sizeof_header + (create_entries dir).length * sizeof_entry ≤ e.offset) := by
  constructor
  · intro i j p q hij hp hq
    obtain ⟨p', hp', rfl⟩ := create_entries_getElem dir i p hp
    obtain ⟨q', hq', rfl⟩ := create_entries_getElem dir j q hq
    rw [create_payloads_eq] at hp' hq'
    exact fill_ordered _ _ i j p' q' hij hp' hq'
  · intro e he
    obtain ⟨p, hp, rfl⟩ := mem_create_entries dir e he
    rw [length_create_entries]
    exact le_trans (le_alignUp _) (le_offset_of_mem_fill _ _ _ hp)

set_option maxRecDepth 1000000 in
/-- C4 at `scenario`. -/
theorem payloads_disjoint_witness :
    0 < 1 ∧ (create_entries scenario)[0]? = some a_dat_entry ∧
    (create_entries scenario)[1]? = some b_txt_entry ∧
    a_dat_entry.offset + a_dat_entry.size ≤ b_txt_entry.offset ∧
    a_dat_entry ∈ create_entries scenario ∧
    sizeof_header + (create_entries scenario).length * sizeof_entry ≤ a_dat_entry.offset :=
  ⟨by decide, by decide, by decide,
    (payloads_disjoint scenario).1 0 1 a_dat_entry b_txt_entry (by decide) (by decide)
      (by decide),
    by decide, (payloads_disjoint scenario).2 a_dat_entry (by decide)⟩

set_option maxRecDepth 1000000 in
/-- C5 fails: a header has 0x40 bytes, not 0x48, and the bytes of the container
of `scenario` from offset 0x48 on are not its entry table. -/
theorem header_size_0x48_fails :
    ¬ ((make_header 2).bytes.length = 0x48) ∧
    ¬ (slice (create scenario) 0x48 (2 * sizeof_entry)
      = table_bytes (create_entries scenario)) := by
  decide

/-- C5, amended.  The header record (magic u32, version u32, entry count u64,
0x30 reserved bytes) has a fixed total size of 0x40 bytes, so the entry table
written by the packer and read by the unpacker starts at byte offset 0x40 of
the container. -/
theorem header_layout (h : mpk_header) (dir : List directory_entry) (container : List Byte) :
    h.bytes.length = 0x40 ∧ sizeof_header = 0x40 ∧
    (create dir).take 0x40 = (make_header (list_files dir).length).bytes ∧
    slice (create dir) 0x40 ((list_files dir).length * sizeof_entry)
      = table_bytes (create_entries dir) ∧
    ftell (fread (zeros sizeof_header) sizeof_header (fopen_rb container)).2
      = min 0x40 container.length := by
  refine ⟨length_header_bytes h, sizeof_header_eq, ?_, ?_, ?_⟩
  · rw [← sizeof_header_eq]; exact take_create_header dir
  · rw [← sizeof_header_eq]; exact slice_create_table dir
  · simp [ftell, fread, fopen_rb, sizeof_header_eq]

set_option maxRecDepth 1000000 in
/-- C6 fails: the record of `b.txt` has 0x100 bytes, not 0xF8, and record 1 of
the container of `scenario` does not lie at `sizeof_header + 1 * 0xF8`. -/
theorem entry_size_0xF8_fails :
    ¬ (b_txt_entry.bytes.length = 0xF8) ∧
    ¬ (slice (create scenario) (sizeof_header + 1 * 0xF8) 0xF8 = b_txt_entry.bytes) := by
  decide

/-- C6, amended.  Each entry record (compression u32, entry id u32, offset u64,
size u64, decompressed size u64, file name of 224 bytes) occupies exactly 0x100
bytes, so record `i` of the table lies at byte offset
`sizeof_header + i * 0x100`, where the packer writes it and from where the
unpacker decodes it. -/
theorem entry_layout (e : mpk_entry) (dir : List directory_entry) (i : Nat)
    (table : List Byte) :
    e.bytes.length = 0x100 ∧ sizeof_entry = 0x100 ∧
    ((create_entries dir)[i]? = some e →
      slice (create dir) (sizeof_header + i * 0x100) 0x100 = e.bytes) ∧
    entry_at table i = mpk_entry.ofBytes (slice table (i * 0x100) 0x100) := by
  refine ⟨length_entry_bytes e, sizeof_entry_eq, ?_, ?_⟩
  · intro h
    rw [← sizeof_entry_eq]
    exact slice_create_entry dir i e h
  · rw [← sizeof_entry_eq]; rfl

set_option maxRecDepth 1000000 in
/-- C6, amended, at record 1 of the container of `scenario`. -/
theorem entry_layout_witness :
    (create_entries scenario)[1]? = some b_txt_entry ∧
    slice (create scenario) (sizeof_header + 1 * 0x100) 0x100 = b_txt_entry.bytes :=
  ⟨by decide, (entry_layout b_txt_entry scenario 1 []).2.2.1 (by decide)⟩

/-- C7. For a container made by the packer from a directory with `N` regular
files (`N` within the unpacker's 32-bit counter): the header's entry count is
`N`, the packer writes `N` records, which fill the table region of the
container and are the `N` records read back, and unpacking the container ends
successfully with `N` output files whose names are all different. -/
theorem entry_count_consistent (dir : List directory_entry) (outdir base_name : List Byte)
    (fuel : Nat)
    (hN : (dir.filter fun e => e.type = file_type.regular).length < 2 ^ 32)
    (hfuel : (dir.filter fun e => e.type = file_type.regular).length < fuel) :
    (read_header (create dir)).entries
      = (dir.filter fun e => e.type = file_type.regular).length ∧
    (create_entries dir).length = (dir.filter fun e => e.type = file_type.regular).length ∧
    slice (create dir) sizeof_header
        ((dir.filter fun e => e.type = file_type.regular).length * sizeof_entry)
      = table_bytes (create_entries dir) ∧
    (read_entries (create dir)).length
      = (dir.filter fun e => e.type = file_type.regular).length ∧
    ∃ files, extract fuel outdir base_name (create dir)
        = some (Exit.EXIT_SUCCESS, ⟨[outdir], files⟩) ∧
      (files.map Prod.fst).Nodup ∧
      files.length = (dir.filter fun e => e.type = file_type.regular).length := by
  rw [← length_list_files] at hN hfuel ⊢
  have hmod : (list_files dir).length % 2 ^ 64 = (list_files dir).length :=
    Nat.mod_eq_of_lt (by omega)
  refine ⟨?_, length_create_entries dir, slice_create_table dir, ?_, ?_⟩
  · rw [read_header_create, hmod]
  · rw [read_entries_create, hmod, List.length_map, List.length_take, length_create_entries,
      Nat.min_self]
  · obtain ⟨files, h1, h2, h3⟩ := unpack_create_count dir outdir base_name fuel hN hfuel
    exact ⟨files, h1, h3, h2⟩

set_option maxRecDepth 1000000 in
/-- C7 at `scenario`. -/
theorem entry_count_consistent_witness :
    (scenario.filter fun e => e.type = file_type.regular).length < 2 ^ 32 ∧
    (scenario.filter fun e => e.type = file_type.regular).length < 3 ∧
    (read_header (create scenario)).entries = 2 ∧
    ∃ files, extract 3 test_stem test_stem (create scenario)
        = some (Exit.EXIT_SUCCESS, ⟨[test_stem], files⟩) ∧
      (files.map Prod.fst).Nodup ∧ files.length = 2 :=
  ⟨by decide, by decide,
    (entry_count_consistent scenario test_stem test_stem 3 (by decide) (by decide)).1,
    (entry_count_consistent scenario test_stem test_stem 3 (by decide) (by decide)).2.2.2.2⟩

/-- C8. Packing a directory without regular files gives a container that is
exactly the header, with the magic constant and an entry count of zero;
unpacking that container ends successfully and writes no file. -/
theorem empty_directory (dir : List directory_entry) (outdir base_name : List Byte)
    (fuel : Nat) (h : ∀ e ∈ dir, e.type ≠ file_type.regular) (hfuel : 0 < fuel) :
    (read_header (create dir)).magic = MPK_MAGIC ∧
    (read_header (create dir)).entries = 0 ∧
    create dir = (make_header 0).bytes ∧
    (create dir).length = sizeof_header ∧
    extract fuel outdir base_name (create dir)
      = some (Exit.EXIT_SUCCESS, ⟨[outdir], []⟩) := by
  have hfil : (dir.filter fun e => e.type = file_type.regular) = [] := by
    rw [List.filter_eq_nil_iff]
    intro e he
    simpa using h e he
  have hl : list_files dir = [] := by
    simp only [list_files, hfil, sort, List.foldr_nil]
  have hc : create dir = (make_header 0).bytes := by
    have he : create_entries dir = [] :=
      List.length_eq_zero.mp (by rw [length_create_entries, hl]; rfl)
    rw [create_eq, he, hl]
    simp [table_bytes, payload_data]
  have hp : ftell (create_payloads dir).2 < 2 ^ 63 := by
    rw [create_payloads_eq, hl]
    simp only [ftell, end_pos, List.length_nil, Nat.zero_mul, Nat.add_zero]
    exact lt_of_lt_of_le (alignUp_lt _) (by rw [sizeof_header_eq]; norm_num)
  refine ⟨by rw [read_header_create], by rw [read_header_create, hl]; rfl, hc, ?_, ?_⟩
  · rw [hc, length_header_bytes, sizeof_header_eq]
  · rw [extract_create dir outdir base_name fuel (by rw [hl]; norm_num) hp (by rw [hl]; exact hfuel),
      hl]
    rfl

set_option maxRecDepth 1000000 in
/-- C8 at a directory that holds one subdirectory `d`. -/
theorem empty_directory_witness :
    (∀ e ∈ [(⟨[100], file_type.directory, []⟩ : directory_entry)],
      e.type ≠ file_type.regular) ∧ 0 < 1 ∧
    (read_header (create [⟨[100], file_type.directory, []⟩])).magic = MPK_MAGIC ∧
    (read_header (create [⟨[100], file_type.directory, []⟩])).entries = 0 ∧
    create [⟨[100], file_type.directory, []⟩] = (make_header 0).bytes ∧
    (create [⟨[100], file_type.directory, []⟩]).length = sizeof_header ∧
    extract 1 test_stem test_stem (create [⟨[100], file_type.directory, []⟩])
      = some (Exit.EXIT_SUCCESS, ⟨[test_stem], []⟩) :=
  ⟨by decide, by decide,
    empty_directory [⟨[100], file_type.directory, []⟩] test_stem test_stem 1 (by decide)
      (by decide)⟩

set_option maxRecDepth 1000000 in
/-- C9. Packing the directory that holds `b.txt` (the bytes `xyz`) and `a.dat`
(empty) gives `a.dat` entry id 0 and `b.txt` entry id 1, in whichever order the
directory lists them; unpacking the result with base name `test` writes
exactly `test1.dat` (empty) and `test2.txt` (`xyz`). -/
theorem concrete_scenario :
    list_files scenario = [a_dat, b_txt] ∧ list_files [a_dat, b_txt] = [a_dat, b_txt] ∧
    (create_entries scenario).map (fun e => (c_str e.filename.val, e.entry_id))
      = [([97, 46, 100, 97, 116], 0), ([98, 46, 116, 120, 116], 1)] ∧
    extract 3 test_stem test_stem (create scenario)
      = some (Exit.EXIT_SUCCESS, ⟨[test_stem],
          [([116, 101, 115, 116, 49, 46, 100, 97, 116], []),
            ([116, 101, 115, 116, 50, 46, 116, 120, 116], [120, 121, 122])]⟩) := by
  refine ⟨by decide, by decide, by decide, ?_⟩
  rw [extract_create scenario test_stem test_stem 3 (by decide) (by decide) (by decide)]
  decide

/-- C10. For a file name of any length the packer stores its first
`min(len, 223)` bytes, then a NUL, then zeros up to the 224 bytes of the field.
Both writes stay inside the field, the other fields of the entry keep the
values of a fresh entry with its id, the record keeps its size, and each
record of the vector depends on the name of its own file only. -/
theorem filename_field (i : Nat) (name : List Byte) (files : List directory_entry) (j : Nat) :
    (init_entry i name).filename.val
      = name.take (min name.length 223) ++ 0 :: zeros (223 - min name.length 223) ∧
    0 + (name.take (min name.length 223)).length ≤ 0xE0 ∧
    min name.length 223 + 1 ≤ 0xE0 ∧
    c_str (init_entry i name).filename.val = c_str (name.take 223) ∧
    (init_entry i name).compression = 0 ∧ (init_entry i name).entry_id = i % 2 ^ 32 ∧
    (init_entry i name).offset = 0 ∧ (init_entry i name).size = 0 ∧
    (init_entry i name).size_decompressed = 0 ∧
    (init_entry i name).bytes.length = sizeof_entry ∧
    (init_entries 0 files)[j]? = files[j]?.map fun f => (init_entry j f.name, f) := by
  have hle : min name.length 223 ≤ 223 := Nat.min_le_right _ _
  refine ⟨init_entry_filename i name, ?_, by omega, ?_, rfl, rfl, rfl, rfl, rfl, ?_, ?_⟩
  · rw [List.length_take]; omega
  · rw [init_entry_filename]
    have ht : name.take (min name.length 223) = name.take 223 := by
      rw [Nat.min_comm, ← List.take_take, List.take_length]
    rw [ht]
    simp only [c_str]
    rw [List.takeWhile_append]
    split
    · next h =>
      have hp : List.takeWhile (fun b => decide (b ≠ 0)) (name.take 223) = name.take 223 :=
        List.IsPrefix.eq_of_length ( List.takeWhile_prefix _) h
      rw [hp, List.takeWhile_cons]
      simp
    · rfl
  · rw [length_entry_bytes, sizeof_entry_eq]
  · have key : ∀ (k : Nat) (fs : List directory_entry) (j : Nat),
        (init_entries k fs)[j]? = fs[j]?.map fun f => (init_entry (k + j) f.name, f) := by
      intro k fs
      induction fs generalizing k with
      | nil => intro j; simp [init_entries]
      | cons f fs ih =>
        intro j
        cases j with
        | zero => simp [init_entries]
        | succ j =>
          simp only [init_entries, List.getElem?_cons_succ, ih]
          rw [show k + 1 + j = k + (j + 1) by omega]
    simpa using key 0 files j

/-! ## Reading a header from any container -/

theorem toLE_ofLE (bs : List Byte) : toLE bs.length (ofLE bs) = bs := by
  induction bs with
  | nil => rfl
  | cons b bs ih =>
    have hb := b.isLt
    simp only [List.length_cons, toLE, ofLE]
    rw [show (b.val + 256 * ofLE bs) / 256 = ofLE bs by omega, ih]
    congr 1
    apply Fin.ext
    simp only [Fin.ofNat, Fin.val_mk]
    omega

theorem ofLE_injective (a b : List Byte) (hl : a.length = b.length) (h : ofLE a = ofLE b) :
    a = b := by
  rw [← toLE_ofLE a, ← toLE_ofLE b, hl, h]

theorem fread_zeros (n : Nat) (fp : FILE) :
    (fread (zeros n) n fp).1 = field fp.data fp.pos n := by
  simp [fread, field, zeros, List.drop_replicate]

theorem fread_data (buf : List Byte) (n : Nat) (fp : FILE) : (fread buf n fp).2.data = fp.data :=
  rfl

theorem getElem?_field (bs : List Byte) (lo k i : Nat) :
    (field bs lo k)[i]? = if i < k then some ((bs[lo + i]?).getD 0) else none := by
  simp only [field, zeros]
  by_cases h1 : i < ((bs.drop lo).take k).length
  · rw [List.getElem?_append_left h1]
    have h2 : i < k ∧ lo + i < bs.length := by
      simp only [List.length_take, List.length_drop] at h1
      omega
    rw [List.getElem?_take_of_lt h2.1, List.getElem?_drop, if_pos h2.1,
      List.getElem?_eq_getElem h2.2]
    rfl
  · rw [List.getElem?_append_right (by omega)]
    simp only [List.length_take, List.length_drop] at h1 ⊢
    by_cases h2 : i < k
    · rw [if_pos h2, List.getElem?_replicate, if_pos (by omega),
        List.getElem?_eq_none (by omega)]
      rfl
    · rw [if_neg h2, List.getElem?_replicate, if_neg (by omega)]

theorem field_field (bs : List Byte) (p n lo k : Nat) (h : lo + k ≤ n) :
    field (field bs p n) lo k = field bs (p + lo) k := by
  apply List.ext_getElem?
  intro i
  rw [getElem?_field, getElem?_field, getElem?_field]
  by_cases hi : i < k
  · rw [if_pos hi, if_pos hi, if_pos (by omega), Nat.add_assoc]
    rfl
  · rw [if_neg hi, if_neg hi]

theorem read_header_magic (container : List Byte) :
    (read_header container).magic = ofLE (field container 0 4) := by
  simp only [read_header, mpk_header.ofBytes, fread_zeros, fopen_rb]
  rw [field_field _ _ _ _ _ (by rw [sizeof_header_eq]; norm_num)]

theorem field_zero_four (container : List Byte) :
    field container 0 4 = container.take 4 ++ zeros (4 - container.length) := by
  simp only [field, List.drop_zero, List.length_take]
  congr 2
  omega

/-! ## Extensions -/

theorem last_dot_suffix_spec (first : Bool) (s : List Byte) :
    last_dot_suffix first s = [] ∨
      ∃ t, last_dot_suffix first s = 46 :: t ∧ (46 : Byte) ∉ t ∧ (46 :: t) <:+ s := by
  induction s generalizing first with
  | nil => left; rfl
  | cons b bs ih =>
    unfold last_dot_suffix
    split
    · rcases ih false with h | ⟨t, h1, h2, h3⟩
      · left; exact h
      · right; exact ⟨t, h1, h2, h3.trans (List.suffix_cons _ _)⟩
    · next hno =>
      split
      · next h => right; exact ⟨bs, by rw [h.1], hno, by rw [h.1]⟩
      · left; rfl

theorem path_filename_suffix (p : List Byte) : path_filename p <:+ p := by
  induction p with
  | nil => exact List.suffix_refl _
  | cons b bs ih =>
    unfold path_filename
    split
    · exact ih.trans (List.suffix_cons _ _)
    · exact List.suffix_refl _

theorem path_filename_no_slash (p : List Byte) : (47 : Byte) ∉ path_filename p := by
  induction p with
  | nil => simp [path_filename]
  | cons b bs ih =>
    unfold path_filename
    split
    · exact ih
    · next h => exact h

/-- A non-empty extension is a suffix of the path that starts with a period and
holds no other period and no separator. -/
theorem path_extension_spec (p : List Byte) :
    path_extension p = [] ∨
      ∃ t, path_extension p = 46 :: t ∧ (46 : Byte) ∉ t ∧ (47 : Byte) ∉ t ∧
        (46 :: t) <:+ p := by
  unfold path_extension
  simp only
  split
  · left; rfl
  · rcases last_dot_suffix_spec true (path_filename p) with h | ⟨t, h1, h2, h3⟩
    · left; exact h
    · right
      refine ⟨t, h1, h2, ?_, h3.trans (path_filename_suffix p)⟩
      intro h47
      exact path_filename_no_slash p (h3.subset (List.mem_cons_of_mem _ h47))

theorem output_extension_spec (s : List Byte) :
    ∃ t, output_extension s = 46 :: t ∧ (46 : Byte) ∉ t := by
  unfold output_extension
  rcases path_extension_spec s with h | ⟨t, h1, h2, -, -⟩
  · rw [if_pos h]; exact ⟨[98, 105, 110], rfl, by decide⟩
  · rw [if_neg (by rw [h1]; exact List.cons_ne_nil _ _), h1]; exact ⟨t, rfl, h2⟩

theorem output_filename_def (base_name : List Byte) (i : Nat) (e : mpk_entry) :
    output_filename base_name i e
      = base_name ++ to_string ((i + 1) % 2 ^ 32) ++ output_extension (c_str e.filename.val) :=
  rfl

/-! ## The entry loop on any table -/

theorem read_entries_def (container : List Byte) :
    read_entries container
      = (List.range (read_header container).entries).map fun i =>
          entry_at (read_table container) i :=
  rfl

theorem read_entries_getElem (container : List Byte) (i : Nat) (e : mpk_entry)
    (h : (read_entries container)[i]? = some e) :
    i < (read_header container).entries ∧ entry_at (read_table container) i = e := by
  rw [read_entries_def, List.getElem?_map] at h
  by_cases hi : i < (read_header container).entries
  · rw [List.getElem?_range hi] at h
    exact ⟨hi, by simpa using h⟩
  · rw [List.getElem?_eq_none (by simpa using hi)] at h
    exact Option.noConfusion h

/-! # The claims, continued -/

/-- C11. When the first four bytes of a container (a shorter container counted
with the zero bytes the header object keeps) differ from the magic constant,
extraction ends with a failure status, whatever the rest of the container holds
and with any fuel: no directory has been created and no file written. -/
theorem bad_magic_fails (fuel : Nat) (outdir base_name container : List Byte)
    (h : container.take 4 ++ zeros (4 - container.length) ≠ magic_bytes) :
    extract fuel outdir base_name container = some (Exit.EXIT_FAILURE, ⟨[], []⟩) := by
  have hne : (read_header container).magic ≠ MPK_MAGIC := by
    rw [read_header_magic, field_zero_four]
    intro heq
    apply h
    exact ofLE_injective _ _ (by
      simp only [List.length_append, List.length_take, length_zeros, magic_bytes,
        List.length_cons, List.length_nil]
      omega) heq
  unfold extract
  simp only
  rw [show (mpk_header.ofBytes
    (fread (zeros sizeof_header) sizeof_header (fopen_rb container)).1) = read_header container
    from rfl]
  rw [CHECK, if_neg hne]

/-- C11 at a container that starts with `XPK`. -/
theorem bad_magic_fails_witness :
    ([88, 80, 75, 0, 1, 2] : List Byte).take 4 ++ zeros (4 - [88, 80, 75, 0, 1, 2].length)
      ≠ magic_bytes ∧
    extract 0 test_stem test_stem [88, 80, 75, 0, 1, 2]
      = some (Exit.EXIT_FAILURE, ⟨[], []⟩) :=
  ⟨by decide, bad_magic_fails 0 test_stem test_stem [88, 80, 75, 0, 1, 2] (by decide)⟩

/-- C12. For every offset, `alignUp offset 2048` is the smallest multiple of
2048 that is at least `offset`: it is a multiple of 2048, it lies in
`[offset, offset + 2048)`, it is `offset` itself when `offset` is a multiple of
2048, and no multiple of 2048 from `offset` on is smaller. -/
theorem alignUp_smallest_multiple (offset : Nat) :
    alignUp offset 2048 % 2048 = 0 ∧ offset ≤ alignUp offset 2048 ∧
    alignUp offset 2048 < offset + 2048 ∧
    (offset % 2048 = 0 → alignUp offset 2048 = offset) ∧
    ∀ m, m % 2048 = 0 → offset ≤ m → alignUp offset 2048 ≤ m := by
  refine ⟨alignUp_mod offset, le_alignUp offset, alignUp_lt offset, alignUp_of_mod offset, ?_⟩
  intro m hm hle
  unfold alignUp
  omega

/-- C12 at the offsets 4096 (already aligned) and 4097. -/
theorem alignUp_smallest_multiple_witness :
    (4096 % 2048 = 0 ∧ alignUp 4096 2048 = 4096) ∧
    (6144 % 2048 = 0 ∧ 4097 ≤ 6144 ∧ alignUp 4097 2048 ≤ 6144) :=
  ⟨⟨by decide, (alignUp_smallest_multiple 4096).2.2.2.1 (by decide)⟩,
    ⟨by decide, by decide,
      (alignUp_smallest_multiple 4097).2.2.2.2 6144 (by decide) (by decide)⟩⟩

/-! ## Order, sizes and offsets of the table -/

theorem path_lt_total (a b : List Byte) (h1 : path_lt a b = false) (h2 : path_lt b a = false) :
    a = b := by
  induction a generalizing b with
  | nil => cases b <;> simp [path_lt] at h1 ⊢
  | cons x a ih =>
    cases b with
    | nil => simp [path_lt] at h2
    | cons y b =>
      simp only [path_lt] at h1 h2
      by_cases hxy : x < y
      · simp [hxy] at h1
      by_cases hyx : y < x
      · simp [hyx] at h2
      simp only [hxy, hyx, if_false] at h1 h2
      rw [le_antisymm (not_lt.mp hyx) (not_lt.mp hxy), ih b h1 h2]

theorem takeWhile_append_nul (name rest : List Byte) (h : (0 : Byte) ∉ name) :
    c_str (name ++ 0 :: rest) = name := by
  induction name with
  | nil => simp [c_str]
  | cons b bs ih =>
    have hb : b ≠ 0 := fun hb => h (by rw [hb]; exact List.mem_cons_self _ _)
    have ih' := ih (fun hm => h (List.mem_cons_of_mem _ hm))
    simp only [c_str] at ih' ⊢
    rw [List.cons_append, List.takeWhile_cons_of_pos (by simpa using hb), ih']

theorem fill_head (pos : Nat) (es : List (mpk_entry × directory_entry))
    (p : mpk_entry × directory_entry) (h : (fill pos es)[0]? = some p) : p.1.offset = pos := by
  cases es with
  | nil => simp [fill] at h
  | cons e es =>
    obtain ⟨e, f⟩ := e
    simp only [fill, List.getElem?_cons_zero, Option.some.injEq] at h
    rw [← h]

theorem fill_succ (pos : Nat) (es : List (mpk_entry × directory_entry)) (i : Nat)
    (p q : mpk_entry × directory_entry) (hp : (fill pos es)[i]? = some p)
    (hq : (fill pos es)[i + 1]? = some q) :
    q.1.offset = alignUp (p.1.offset + p.1.size) 2048 := by
  induction es generalizing pos i with
  | nil => simp [fill] at hp
  | cons e es ih =>
    obtain ⟨e, f⟩ := e
    simp only [fill, List.getElem?_cons_succ] at hq
    cases i with
    | zero =>
      simp only [fill, List.getElem?_cons_zero, Option.some.injEq] at hp
      rw [← hp]
      exact fill_head _ _ _ hq
    | succ i =>
      simp only [fill, List.getElem?_cons_succ] at hp
      exact ih _ i hp hq

/-- Record `i` of the packer belongs to the `i`-th file of the sorted list. -/
theorem create_entries_file (dir : List directory_entry) (i : Nat) (e : mpk_entry)
    (h : (create_entries dir)[i]? = some e) :
    ∃ f, (list_files dir)[i]? = some f ∧ e.compression = 0 ∧ e.entry_id = i % 2 ^ 32 ∧
      e.filename = (init_entry i f.name).filename ∧ e.size = file_size f ∧
      e.size_decompressed = file_size f := by
  obtain ⟨p, hp, rfl⟩ := create_entries_getElem dir i e h
  rw [create_payloads_eq] at hp
  obtain ⟨h1, h2, h3, h4, h5, h6⟩ := fill_init_getElem _ _ _ _ _ hp
  rw [Nat.zero_add] at h3 h4
  exact ⟨p.2, h1, h2, h3, h4, h5, h6⟩

set_option maxRecDepth 100000 in
/-- C15 fails for a file whose name has 224 bytes: the file name field of its
record holds only the first 223 bytes of the name. -/
theorem long_name_not_held :
    list_files [long_file] = [long_file] ∧ long_file.name.length = 224 ∧
    (create_entries [long_file]).map (fun e => c_str e.filename.val)
      = [List.replicate 223 97] ∧
    ¬ ∀ (i : Nat) (e : mpk_entry) (f : directory_entry),
      (create_entries [long_file])[i]? = some e →
      (list_files [long_file])[i]? = some f → c_str e.filename.val = f.name := by
  refine ⟨by decide, by decide, by decide, ?_⟩
  intro h
  have h1 := h 0 ({ init_entry 0 long_name with offset := 2048 }) long_file (by decide)
    (by decide)
  revert h1
  decide

/-- C15, amended.  The sorted list the packer works on holds exactly the regular
files of the directory, in ascending bytewise order of their names (strictly
ascending when the names are distinct).  Record `i` of the table belongs to
the `i`-th file of that list: its entry id is `i` (reduced to 32 bits), its
file name field holds the first `min(len, 223)` bytes of the file's name,
then a NUL and zeros, which is the whole name when the name has at most 223
bytes; and the record lies at `sizeof_header + i * sizeof_entry` in the
container. -/
theorem table_order (dir : List directory_entry) :
    (list_files dir).Perm (dir.filter fun e => e.type = file_type.regular) ∧
    (list_files dir).Pairwise (fun a b => path_lt b.name a.name = false) ∧
    (((list_files dir).map fun f => f.name).Nodup →
      (list_files dir).Pairwise (fun a b => path_lt a.name b.name = true)) ∧
    (create_entries dir).length = (list_files dir).length ∧
    ∀ i e, (create_entries dir)[i]? = some e →
      ∃ f, (list_files dir)[i]? = some f ∧
        e.entry_id = i % 2 ^ 32 ∧ (i < 2 ^ 32 → e.entry_id = i) ∧
        e.filename.val
          = f.name.take (min f.name.length 223) ++ 0 :: zeros (223 - min f.name.length 223) ∧
        (f.name.length ≤ 223 → (0 : Byte) ∉ f.name → c_str e.filename.val = f.name) ∧
        slice (create dir) (sizeof_header + i * sizeof_entry) sizeof_entry = e.bytes := by
  refine ⟨perm_sort _, sorted_sort _, ?_, length_create_entries dir, ?_⟩
  · intro hnd
    have h1 : (list_files dir).Pairwise (fun a b => a.name ≠ b.name) := by
      unfold List.Nodup at hnd
      rw [List.pairwise_map] at hnd
      exact hnd
    refine ((sorted_sort _).and h1).imp ?_
    intro a b hab
    by_contra hlt
    exact hab.2 (path_lt_total _ _ (by simpa using hlt) hab.1)
  · intro i e he
    obtain ⟨f, hf, -, hid, hfn, -, -⟩ := create_entries_file dir i e he
    refine ⟨f, hf, hid, fun hi => by rw [hid, Nat.mod_eq_of_lt hi], ?_, ?_,
      slice_create_entry dir i e he⟩
    · rw [hfn]; exact init_entry_filename i f.name
    · intro hl h0
      rw [hfn, init_entry_filename, Nat.min_eq_left hl, List.take_length]
      exact takeWhile_append_nul _ _ h0

set_option maxRecDepth 1000000 in
/-- C15, amended, at `scenario`. -/
theorem table_order_witness :
    ((list_files scenario).map fun f => f.name).Nodup ∧
    (list_files scenario).Pairwise (fun a b => path_lt a.name b.name = true) ∧
    (create_entries scenario)[1]? = some b_txt_entry ∧ 1 < 2 ^ 32 ∧
    b_txt.name.length ≤ 223 ∧ (0 : Byte) ∉ b_txt.name ∧
    ∃ f, (list_files scenario)[1]? = some f ∧
      b_txt_entry.entry_id = 1 % 2 ^ 32 ∧ (1 < 2 ^ 32 → b_txt_entry.entry_id = 1) ∧
      b_txt_entry.filename.val
        = f.name.take (min f.name.length 223) ++ 0 :: zeros (223 - min f.name.length 223) ∧
      (f.name.length ≤ 223 → (0 : Byte) ∉ f.name → c_str b_txt_entry.filename.val = f.name) ∧
      slice (create scenario) (sizeof_header + 1 * sizeof_entry) sizeof_entry
        = b_txt_entry.bytes :=
  ⟨by decide, (table_order scenario).2.2.1 (by decide), by decide, by decide, by decide,
    by decide, (table_order scenario).2.2.2.2 1 b_txt_entry (by decide)⟩

/-- C16. Every entry record the packer writes has compression 0 and stores
the byte length of its input file, the `i`-th file of the sorted list, both as
size and as decompressed size; the record is what the container holds at
`sizeof_header + i * sizeof_entry`. -/
theorem stored_sizes (dir : List directory_entry) (i : Nat) (e : mpk_entry)
    (h : (create_entries dir)[i]? = some e) :
    ∃ f, (list_files dir)[i]? = some f ∧ e.compression = 0 ∧
      e.size = f.contents.length ∧ e.size_decompressed = f.contents.length ∧
      slice (create dir) (sizeof_header + i * sizeof_entry) sizeof_entry = e.bytes := by
  obtain ⟨f, hf, hc, -, -, hs, hd⟩ := create_entries_file dir i e h
  exact ⟨f, hf, hc, hs, hd, slice_create_entry dir i e h⟩

set_option maxRecDepth 1000000 in
/-- C16 at the record of `b.txt` in `scenario`. -/
theorem stored_sizes_witness :
    (create_entries scenario)[1]? = some b_txt_entry ∧
    (list_files scenario)[1]? = some b_txt ∧
    ∃ f, (list_files scenario)[1]? = some f ∧ b_txt_entry.compression = 0 ∧
      b_txt_entry.size = f.contents.length ∧
      b_txt_entry.size_decompressed = f.contents.length ∧
      slice (create scenario) (sizeof_header + 1 * sizeof_entry) sizeof_entry
        = b_txt_entry.bytes :=
  ⟨by decide, by decide, stored_sizes scenario 1 b_txt_entry (by decide)⟩

/-- C17. The offsets of the packer follow the layout recurrence: the first is
`alignUp (sizeof_header + N * sizeof_entry) 2048` for `N` entries, each
further one is `alignUp` of the end of the payload before it; so the entry
after a zero-byte entry has the same offset. -/
theorem offset_recurrence (dir : List directory_entry) :
    (∀ e, (create_entries dir)[0]? = some e →
      e.offset = alignUp (sizeof_header + (create_entries dir).length * sizeof_entry) 2048) ∧
    (∀ (i : Nat) (p q : mpk_entry), (create_entries dir)[i]? = some p →
      (create_entries dir)[i + 1]? = some q → q.offset = alignUp (p.offset + p.size) 2048) ∧
    (∀ (i : Nat) (p q : mpk_entry), (create_entries dir)[i]? = some p →
      (create_entries dir)[i + 1]? = some q → p.size = 0 → q.offset = p.offset) := by
  have hrec : ∀ (i : Nat) (p q : mpk_entry), (create_entries dir)[i]? = some p →
      (create_entries dir)[i + 1]? = some q → q.offset = alignUp (p.offset + p.size) 2048 := by
    intro i p q hp hq
    obtain ⟨p', hp', rfl⟩ := create_entries_getElem dir i p hp
    obtain ⟨q', hq', rfl⟩ := create_entries_getElem dir (i + 1) q hq
    rw [create_payloads_eq] at hp' hq'
    exact fill_succ _ _ i p' q' hp' hq'
  refine ⟨?_, hrec, ?_⟩
  · intro e he
    obtain ⟨p, hp, rfl⟩ := create_entries_getElem dir 0 e he
    rw [create_payloads_eq] at hp
    rw [length_create_entries]
    exact fill_head _ _ _ hp
  · intro i p q hp hq hz
    rw [hrec i p q hp hq, hz, Nat.add_zero]
    obtain ⟨p', hp', rfl⟩ := mem_create_entries dir p (List.getElem?_mem hp)
    exact alignUp_of_mod _ (offset_mod_of_mem_fill _ _ (alignUp_mod _) p' hp')

set_option maxRecDepth 1000000 in
/-- C17 at `scenario`: the empty `a.dat` and `b.txt` after it share offset
2048. -/
theorem offset_recurrence_witness :
    (create_entries scenario)[0]? = some a_dat_entry ∧
    (create_entries scenario)[0 + 1]? = some b_txt_entry ∧ a_dat_entry.size = 0 ∧
    a_dat_entry.offset
      = alignUp (sizeof_header + (create_entries scenario).length * sizeof_entry) 2048 ∧
    b_txt_entry.offset = alignUp (a_dat_entry.offset + a_dat_entry.size) 2048 ∧
    b_txt_entry.offset = a_dat_entry.offset :=
  ⟨by decide, by decide, by decide,
    (offset_recurrence scenario).1 a_dat_entry (by decide),
    (offset_recurrence scenario).2.1 0 a_dat_entry b_txt_entry (by decide) (by decide),
    (offset_recurrence scenario).2.2 0 a_dat_entry b_txt_entry (by decide) (by decide)
      (by decide)⟩

/-! ## The end of the container and its padding -/

theorem payload_data_nil (len pos : Nat) (es : List (mpk_entry × directory_entry))
    (h : ∀ q ∈ fill pos es, q.1.size = 0) : payload_data len pos (es.map Prod.snd) = [] := by
  induction es generalizing pos with
  | nil => rfl
  | cons e es ih =>
    obtain ⟨e, f⟩ := e
    simp only [fill, List.mem_cons, forall_eq_or_imp] at h
    have hc : f.contents = [] := List.length_eq_zero.mp h.1
    simp only [List.map_cons, payload_data, if_pos hc]
    exact ih _ h.2

theorem payload_data_length (len pos : Nat) (es : List (mpk_entry × directory_entry))
    (hle : len ≤ pos) (k : Nat) (p : mpk_entry × directory_entry)
    (hp : (fill pos es)[k]? = some p) (hne : 0 < p.1.size)
    (hz : ∀ j q, k < j → (fill pos es)[j]? = some q → q.1.size = 0) :
    len + (payload_data len pos (es.map Prod.snd)).length = p.1.offset + p.1.size := by
  induction es generalizing len pos k with
  | nil => simp [fill] at hp
  | cons e es ih =>
    obtain ⟨e, f⟩ := e
    simp only [List.map_cons, payload_data]
    cases k with
    | zero =>
      simp only [fill, List.getElem?_cons_zero, Option.some.injEq] at hp
      subst hp
      have hc : f.contents ≠ [] := by
        intro hc
        simp [file_size, hc] at hne
      have htail : ∀ q ∈ fill (alignUp (pos + file_size f) 2048) es, q.1.size = 0 := by
        intro q hq
        obtain ⟨j, hj⟩ := List.mem_iff_getElem?.mp hq
        exact hz (j + 1) q (Nat.succ_pos j) (by simpa [fill] using hj)
      rw [if_neg hc, payload_data_nil _ _ _ htail]
      simp only [List.length_append, length_zeros, List.append_nil, file_size]
      omega
    | succ k =>
      simp only [fill, List.getElem?_cons_succ] at hp
      have hz' : ∀ j q, k < j →
          (fill (alignUp (pos + file_size f) 2048) es)[j]? = some q → q.1.size = 0 := by
        intro j q hj hq
        exact hz (j + 1) q (by omega) (by simpa [fill] using hq)
      by_cases hc : f.contents = []
      · rw [if_pos hc]
        exact ih len _ (le_trans (by omega) (le_alignUp _)) k hp hz'
      · rw [if_neg hc]
        have := ih (pos + file_size f) _ (le_alignUp _) k hp hz'
        simp only [List.length_append, length_zeros, file_size] at this ⊢
        omega

theorem payload_data_gap (len pos : Nat) (es : List (mpk_entry × directory_entry))
    (hle : len ≤ pos) (x : Nat) (hx : len ≤ x)
    (hlt : x - len < (payload_data len pos (es.map Prod.snd)).length)
    (hout : ∀ q ∈ fill pos es, ¬ (q.1.offset ≤ x ∧ x < q.1.offset + q.1.size)) :
    (payload_data len pos (es.map Prod.snd))[x - len]? = some 0 := by
  induction es generalizing len pos with
  | nil => simp [payload_data] at hlt
  | cons e es ih =>
    obtain ⟨e, f⟩ := e
    simp only [fill, List.mem_cons, forall_eq_or_imp] at hout
    simp only [List.map_cons, payload_data] at hlt ⊢
    by_cases hc : f.contents = []
    · rw [if_pos hc] at hlt ⊢
      exact ih len _ (le_trans (by omega) (le_alignUp _)) hx hlt hout.2
    · rw [if_neg hc] at hlt ⊢
      have hhead := hout.1
      simp only [file_size] at hhead
      by_cases h1 : x < pos
      · rw [List.append_assoc, List.getElem?_append_left (by rw [length_zeros]; omega)]
        simp only [zeros]
        rw [List.getElem?_replicate, if_pos (by omega)]
      · have h2 : pos + f.contents.length ≤ x := by omega
        simp only [List.length_append, length_zeros, file_size] at hlt
        rw [List.getElem?_append_right (by
          simp only [List.length_append, length_zeros]; omega)]
        simp only [List.length_append, length_zeros]
        have := ih (pos + file_size f) _ (le_alignUp _) (by simp only [file_size]; omega)
          (by simp only [file_size]; omega) hout.2
        simp only [file_size] at this
        rw [show x - len - (pos - len + f.contents.length) = x - (pos + f.contents.length) by
          omega]
        exact this

theorem getElem?_create_payload (dir : List directory_entry) (x : Nat)
    (hx : sizeof_header + (list_files dir).length * sizeof_entry ≤ x) :
    (create dir)[x]? = (payload_data sizeof_header
      (alignUp (sizeof_header + (list_files dir).length * sizeof_entry) 2048)
      (list_files dir))[x - sizeof_header]? := by
  have hlen := length_table_bytes (create_entries dir)
  rw [length_create_entries] at hlen
  rw [create_eq, List.getElem?_append_right (by
    rw [List.length_append, length_header_bytes, hlen]
    rw [sizeof_header_eq] at hx
    exact hx)]
  rw [List.getElem?_drop, List.length_append, length_header_bytes, hlen]
  have key : (list_files dir).length * sizeof_entry +
      (x - (64 + (list_files dir).length * sizeof_entry)) = x - sizeof_header := by
    rw [sizeof_header_eq, sizeof_entry_eq] at *
    omega
  rw [key]

/-- C20. The packer writes nothing after the last payload: the length of the
container is the end `offset + size` of the last non-empty entry, and the end
of the entry table when no entry is non-empty; every byte of the container
after the entry table that lies in no payload range is zero. -/
theorem no_trailing_padding (dir : List directory_entry) :
    (∀ (k : Nat) (p : mpk_entry), (create_entries dir)[k]? = some p → 0 < p.size →
      (∀ (j : Nat) (q : mpk_entry), k < j → (create_entries dir)[j]? = some q → q.size = 0) →
      (create dir).length = p.offset + p.size) ∧
    ((∀ e ∈ create_entries dir, e.size = 0) →
      (create dir).length = sizeof_header + (create_entries dir).length * sizeof_entry) ∧
    (∀ x, sizeof_header + (create_entries dir).length * sizeof_entry ≤ x →
      x < (create dir).length →
      (∀ e ∈ create_entries dir, ¬ (e.offset ≤ x ∧ x < e.offset + e.size)) →
      (create dir)[x]? = some 0) := by
  have hH : sizeof_header ≤
      alignUp (sizeof_header + (list_files dir).length * sizeof_entry) 2048 :=
    le_trans (by omega) (le_alignUp _)
  have hmem : ∀ q ∈ fill (alignUp (sizeof_header + (list_files dir).length * sizeof_entry) 2048)
      (init_entries 0 (list_files dir)), q.1 ∈ create_entries dir := by
    intro q hq
    simp only [create_entries, create_payloads_eq, List.mem_map]
    exact ⟨q, hq, rfl⟩
  have hget : ∀ (j : Nat) (q : mpk_entry × directory_entry),
      (fill (alignUp (sizeof_header + (list_files dir).length * sizeof_entry) 2048)
        (init_entries 0 (list_files dir)))[j]? = some q →
      (create_entries dir)[j]? = some q.1 := by
    intro j q hq
    simp only [create_entries, create_payloads_eq, List.getElem?_map, hq, Option.map_some']
  refine ⟨?_, ?_, ?_⟩
  · intro k p hp hne hz
    obtain ⟨p', hp', rfl⟩ := create_entries_getElem dir k p hp
    rw [create_payloads_eq] at hp'
    simp only at hp'
    have h1 := payload_data_length sizeof_header _ _ hH k p' hp' hne
      (fun j q hj hq => hz j q.1 hj (hget j q hq))
    rw [map_snd_init_entries] at h1
    have h2 := le_trans (le_alignUp _) (le_offset_of_mem_fill _ _ _ (List.getElem?_mem hp'))
    rw [length_create]
    omega
  · intro hz
    have h1 := payload_data_nil sizeof_header
      (alignUp (sizeof_header + (list_files dir).length * sizeof_entry) 2048)
      (init_entries 0 (list_files dir)) (fun q hq => hz q.1 (hmem q hq))
    rw [map_snd_init_entries] at h1
    rw [length_create, h1, length_create_entries]
    simp
  · intro x hx hlt hout
    rw [length_create_entries] at hx
    rw [getElem?_create_payload dir x hx]
    have h1 := payload_data_gap sizeof_header _ (init_entries 0 (list_files dir)) hH x
      (by omega)
    rw [map_snd_init_entries] at h1
    refine h1 ?_ (fun q hq => hout q.1 (hmem q hq))
    rw [length_create] at hlt
    omega

set_option maxRecDepth 1000000 in
/-- C20 at `scenario` (the container ends with the payload of `b.txt`, byte
1000 is padding) and at the directory of the empty file `a.dat` alone. -/
theorem no_trailing_padding_witness :
    ((create_entries scenario)[1]? = some b_txt_entry ∧ 0 < b_txt_entry.size ∧
      (∀ (j : Nat) (q : mpk_entry), 1 < j → (create_entries scenario)[j]? = some q →
        q.size = 0) ∧
      (create scenario).length = b_txt_entry.offset + b_txt_entry.size) ∧
    ((∀ e ∈ create_entries [a_dat], e.size = 0) ∧
      (create [a_dat]).length = sizeof_header + (create_entries [a_dat]).length * sizeof_entry) ∧
    (sizeof_header + (create_entries scenario).length * sizeof_entry ≤ 1000 ∧
      (∀ e ∈ create_entries scenario, ¬ (e.offset ≤ 1000 ∧ 1000 < e.offset + e.size)) ∧
      (create scenario)[1000]? = some 0) := by
  have hz : ∀ (j : Nat) (q : mpk_entry), 1 < j → (create_entries scenario)[j]? = some q →
      q.size = 0 := by
    intro j q hj hq
    have hl : (create_entries scenario).length = 2 := by decide
    rw [List.getElem?_eq_none (by omega)] at hq
    exact Option.noConfusion hq
  have hb : (create_entries scenario)[1]? = some b_txt_entry := by decide
  have hl2 : (create scenario).length = b_txt_entry.offset + b_txt_entry.size :=
    (no_trailing_padding scenario).1 1 b_txt_entry hb (by decide) hz
  have ho : ∀ e ∈ create_entries scenario, ¬ (e.offset ≤ 1000 ∧ 1000 < e.offset + e.size) := by
    decide
  exact ⟨⟨hb, by decide, hz, hl2⟩,
    ⟨by decide, (no_trailing_padding [a_dat]).2.1 (by decide)⟩,
    ⟨by decide, ho, (no_trailing_padding scenario).2.2 1000 (by decide)
      (by rw [hl2]; decide) ho⟩⟩

/-! ## The run on any container -/

theorem length_field (bs : List Byte) (lo n : Nat) : (field bs lo n).length = n := by
  simp only [field, zeros, List.length_append, List.length_take, List.length_drop,
    List.length_replicate]
  omega

theorem length_read_table (container : List Byte) :
    (read_table container).length = (read_header container).entries * sizeof_entry := by
  unfold read_table
  simp only
  rw [fread_zeros, length_field]
  rfl

/-- A string with a NUL among its first `n` bytes ends within them. -/
theorem c_str_take (s : List Byte) (n : Nat) (h : (0 : Byte) ∈ s.take n) :
    (0 : Byte) ∈ s ∧ c_str s = c_str (s.take n) := by
  refine ⟨List.mem_of_mem_take h, ?_⟩
  induction s generalizing n with
  | nil => simp
  | cons b s ih =>
    cases n with
    | zero => simp at h
    | succ n =>
      rw [List.take_succ_cons] at h ⊢
      unfold c_str at ih ⊢
      by_cases hb : b = 0
      · simp [List.takeWhile_cons, hb]
      · rw [List.takeWhile_cons_of_pos (by simpa using hb),
          List.takeWhile_cons_of_pos (by simpa using hb)]
        have h0 : (0 : Byte) ∈ s.take n := by
          rcases List.mem_cons.mp h with h | h
          · exact absurd h.symm hb
          · exact h
        rw [ih n h0]

/-- The file name field of a record that lies within the storage: the 224
bytes from the offset of the field on. -/
theorem entry_at_filename (table : List Byte) (i : Nat)
    (h : (i + 1) * sizeof_entry ≤ table.length) :
    (entry_at table i).filename.val
      = (table.drop (i * sizeof_entry + filename_offset)).take 0xE0 := by
  have hs := sizeof_entry_eq
  have hfo : filename_offset = 32 := rfl
  show field ((table.drop (i * sizeof_entry)).take sizeof_entry) 32 0xE0 = _
  apply List.ext_getElem?
  intro k
  rw [getElem?_field]
  by_cases hk : k < 0xE0
  · rw [if_pos hk, List.getElem?_take_of_lt hk, List.getElem?_take_of_lt (by omega),
      List.getElem?_drop, List.getElem?_drop]
    have hlt : i * sizeof_entry + (32 + k) < table.length := by
      rw [Nat.add_mul] at h
      omega
    rw [List.getElem?_eq_getElem hlt]
    rw [show i * sizeof_entry + filename_offset + k = i * sizeof_entry + (32 + k) by omega,
      List.getElem?_eq_getElem hlt]
    rfl
  · rw [if_neg hk, List.getElem?_eq_none]
    rw [List.length_take]
    omega

/-- The name read for a record within the storage whose file name field holds
a NUL is the string of the field. -/
theorem stored_name_of_nul (table : List Byte) (i : Nat)
    (h : (i + 1) * sizeof_entry ≤ table.length)
    (h0 : (0 : Byte) ∈ (entry_at table i).filename.val) :
    stored_name table i = some (c_str (entry_at table i).filename.val) := by
  rw [entry_at_filename table i h] at h0 ⊢
  obtain ⟨h1, h2⟩ := c_str_take _ _ h0
  unfold stored_name
  simp only
  rw [if_pos h1, h2]

theorem stored_name_read_table (container : List Byte) (i : Nat)
    (hi : i < (read_header container).entries)
    (h0 : (0 : Byte) ∈ (entry_at (read_table container) i).filename.val) :
    stored_name (read_table container) i
      = some (c_str (entry_at (read_table container) i).filename.val) := by
  apply stored_name_of_nul _ _ _ h0
  rw [length_read_table]
  exact Nat.mul_le_mul_right _ hi

theorem output_name_eq (base_name : List Byte) (i : Nat) (e : mpk_entry) :
    output_name base_name i (c_str e.filename.val) = output_filename base_name i e :=
  rfl

/-- Output names of distinct indices below `2 ^ 32 - 1` differ, whatever the
file names read. -/
theorem output_name_injective (base_name : List Byte) (i j : Nat) (s s' : List Byte)
    (hi : i + 1 < 2 ^ 32) (hj : j + 1 < 2 ^ 32)
    (h : output_name base_name i s = output_name base_name j s') : i = j := by
  obtain ⟨t, ht, -⟩ := output_extension_spec s
  obtain ⟨t', ht', -⟩ := output_extension_spec s'
  unfold output_name at h
  rw [ht, ht', Nat.mod_eq_of_lt hi, Nat.mod_eq_of_lt hj, List.append_assoc, List.append_assoc]
    at h
  have h1 := digits_dot_split _ _ _ _ (to_string_ne_dot _) (to_string_ne_dot _)
    (List.append_cancel_left h)
  have := to_string_injective _ _ h1
  omega

set_option maxRecDepth 100000 in
/-- One iteration of `unpack_loop`. -/
theorem unpack_loop_succ (base_name table : List Byte) (count : Nat) (data : List Byte)
    (fuel i : Nat) (buffer : List Byte) (files : List (List Byte × List Byte)) :
    unpack_loop base_name table count data (fuel + 1) i buffer files =
      if i < count then
        match stored_name table i with
        | none => some (Outcome.undefined, files)
        | some s =>
          if 2 ^ 63 ≤ (entry_at table i).size then
            some (Outcome.aborted, files ++ [(output_name base_name i s, [])])
          else if (entry_at table i).size = 0 then
            unpack_loop base_name table count data fuel ((i + 1) % 2 ^ 32) []
              (files ++ [(output_name base_name i s, [])])
          else
            match fseek_unchecked data.length (entry_at table i).offset with
            | none => some (Outcome.unspecified, files)
            | some pos =>
              unpack_loop base_name table count data fuel ((i + 1) % 2 ^ 32)
                (fread (resize buffer (entry_at table i).size) (entry_at table i).size
                  ⟨data, pos⟩).1
                (files ++ [(output_name base_name i s,
                  (fwrite ((fread (resize buffer (entry_at table i).size)
                    (entry_at table i).size ⟨data, pos⟩).1.take (entry_at table i).size)
                    fopen_wb).data)])
      else some (Outcome.exited Exit.EXIT_SUCCESS, files) :=
  rfl

/-- However a run of `unpack_loop` ends, the files it has written are named by
their indices and the names read for them. -/
theorem unpack_loop_names (base_name table : List Byte) (count : Nat) (hc : count < 2 ^ 32)
    (data : List Byte) (fuel i : Nat) (buffer : List Byte)
    (files : List (List Byte × List Byte)) (r : Outcome × List (List Byte × List Byte))
    (hr : unpack_loop base_name table count data fuel i buffer files = some r) :
    ∃ out, r.2 = files ++ out ∧
      ∀ k f, out[k]? = some f →
        i + k < count ∧ ∃ s, stored_name table (i + k) = some s ∧
          f.1 = output_name base_name (i + k) s := by
  induction fuel generalizing i buffer files with
  | zero => exact Option.noConfusion hr
  | succ fuel ih =>
    rw [unpack_loop_succ] at hr
    by_cases hlt : i < count
    · rw [if_pos hlt] at hr
      have hw : (i + 1) % 2 ^ 32 = i + 1 := Nat.mod_eq_of_lt (by omega)
      rw [hw] at hr
      have hcons : ∀ (d : List Byte) (s : List Byte) (out : List (List Byte × List Byte)),
          stored_name table i = some s →
          r.2 = (files ++ [(output_name base_name i s, d)]) ++ out →
          (∀ k f, out[k]? = some f →
            i + 1 + k < count ∧ ∃ s, stored_name table (i + 1 + k) = some s ∧
              f.1 = output_name base_name (i + 1 + k) s) →
          ∃ out, r.2 = files ++ out ∧
            ∀ k f, out[k]? = some f →
              i + k < count ∧ ∃ s, stored_name table (i + k) = some s ∧
                f.1 = output_name base_name (i + k) s := by
        intro d s out hs h1 h2
        refine ⟨(output_name base_name i s, d) :: out, by rw [h1, List.append_assoc]; rfl, ?_⟩
        intro k f hk
        cases k with
        | zero =>
          simp only [List.getElem?_cons_zero, Option.some.injEq] at hk
          subst hk
          exact ⟨hlt, s, hs, rfl⟩
        | succ k =>
          simp only [List.getElem?_cons_succ] at hk
          rw [show i + (k + 1) = i + 1 + k by omega]
          exact h2 k f hk
      cases hs : stored_name table i with
      | none =>
        rw [hs] at hr
        simp only [Option.some.injEq] at hr
        subst hr
        exact ⟨[], by simp, by simp⟩
      | some s =>
        rw [hs] at hr
        simp only at hr
        by_cases habort : 2 ^ 63 ≤ (entry_at table i).size
        · rw [if_pos habort] at hr
          simp only [Option.some.injEq] at hr
          subst hr
          exact hcons [] s [] hs (by simp) (by simp)
        · rw [if_neg habort] at hr
          by_cases hz : (entry_at table i).size = 0
          · rw [if_pos hz] at hr
            obtain ⟨out, h1, h2⟩ := ih _ _ _ hr
            exact hcons [] s out hs h1 h2
          · rw [if_neg hz] at hr
            cases hseek : fseek_unchecked data.length (entry_at table i).offset with
            | none =>
              rw [hseek] at hr
              simp only [Option.some.injEq] at hr
              subst hr
              exact ⟨[], by simp, by simp⟩
            | some pos =>
              rw [hseek] at hr
              simp only at hr
              obtain ⟨out, h1, h2⟩ := ih _ _ _ hr
              exact hcons _ s out hs h1 h2
    · rw [if_neg hlt] at hr
      simp only [Option.some.injEq] at hr
      subst hr
      exact ⟨[], by simp, by simp⟩

/-- With a count below `2 ^ 32` and more fuel than entries left, a run of
`unpack_loop` ends, one way or another. -/
theorem unpack_loop_total (base_name table : List Byte) (count : Nat) (hc : count < 2 ^ 32)
    (data : List Byte) (fuel i : Nat) (buffer : List Byte)
    (files : List (List Byte × List Byte)) (hi : i ≤ count) (hf : count - i < fuel) :
    ∃ r, unpack_loop base_name table count data fuel i buffer files = some r := by
  induction fuel generalizing i buffer files with
  | zero => omega
  | succ fuel ih =>
    rw [unpack_loop_succ]
    by_cases hlt : i < count
    · rw [if_pos hlt]
      have hw : (i + 1) % 2 ^ 32 = i + 1 := Nat.mod_eq_of_lt (by omega)
      rw [hw]
      cases stored_name table i with
      | none => exact ⟨_, rfl⟩
      | some s =>
        simp only
        by_cases habort : 2 ^ 63 ≤ (entry_at table i).size
        · rw [if_pos habort]; exact ⟨_, rfl⟩
        · rw [if_neg habort]
          by_cases hz : (entry_at table i).size = 0
          · rw [if_pos hz]
            exact ih _ _ _ (by omega) (by omega)
          · rw [if_neg hz]
            cases fseek_unchecked data.length (entry_at table i).offset with
            | none => exact ⟨_, rfl⟩
            | some pos =>
              simp only
              exact ih _ _ _ (by omega) (by omega)
    · rw [if_neg hlt]; exact ⟨_, rfl⟩

/-- On a table whose records each hold a NUL in the file name field, a size
below `2 ^ 63` and, unless the size is zero, an offset within the container
and below `2 ^ 63`, `unpack_loop` is `extract_loop` and ends successfully. -/
theorem unpack_loop_eq_extract_loop (base_name table : List Byte) (count : Nat)
    (hc : count < 2 ^ 32) (data : List Byte)
    (fuel i pos : Nat) (buffer : List Byte) (files : List (List Byte × List Byte))
    (hi : i ≤ count)
    (hwf : ∀ j, i ≤ j → j < count →
      stored_name table j = some (c_str (entry_at table j).filename.val) ∧
        (entry_at table j).size < 2 ^ 63 ∧
        ((entry_at table j).size = 0 ∨
          ((entry_at table j).offset ≤ data.length ∧ (entry_at table j).offset < 2 ^ 63))) :
    unpack_loop base_name table count data fuel i buffer files
      = (extract_loop base_name table count fuel i ⟨data, pos⟩ buffer files).map
          fun fs => (Outcome.exited Exit.EXIT_SUCCESS, fs) := by
  induction fuel generalizing i pos buffer files with
  | zero => rfl
  | succ fuel ih =>
    rw [unpack_loop_succ]
    unfold extract_loop
    by_cases hlt : i < count
    · rw [if_pos hlt, if_pos hlt]
      have hw : (i + 1) % 2 ^ 32 = i + 1 := Nat.mod_eq_of_lt (by omega)
      rw [hw]
      obtain ⟨hs, hsz, hoff⟩ := hwf i (Nat.le_refl _) hlt
      rw [hs]
      simp only
      rw [if_neg (by omega), output_name_eq]
      by_cases hz : (entry_at table i).size = 0
      · rw [if_pos hz, hz]
        have hb : (fread (resize buffer 0) 0 (fseek_set ⟨data, pos⟩ (entry_at table i).offset)).1
            = [] := by
          simp [fread, resize, zeros]
        rw [hb]
        have hw0 : (fwrite (List.take 0 ([] : List Byte)) fopen_wb).data = [] := rfl
        rw [hw0]
        exact ih (i + 1) _ _ _ (by omega) (fun j hj => hwf j (by omega))
      · rw [if_neg hz]
        have hseek : fseek_unchecked data.length (entry_at table i).offset
            = some (entry_at table i).offset := by
          rcases hoff with h | h
          · exact absurd h hz
          · unfold fseek_unchecked
            rw [if_pos h]
        rw [hseek]
        simp only
        exact ih (i + 1) _ _ _ (by omega) (fun j hj => hwf j (by omega))
    · rw [if_neg hlt, if_neg hlt]
      rfl

theorem length_read_write_at (data buffer : List Byte) (pos size : Nat) :
    (fwrite ((fread (resize buffer size) size ⟨data, pos⟩).1.take size)
      fopen_wb).data.length = size := by
  rw [fwrite_fopen_wb]
  simp only [fread, List.length_take, List.length_append, List.length_drop, length_resize]
  omega

/-- The bytes one iteration writes begin with the bytes it could read from
`[pos, pos + size)` of the container. -/
theorem slice_read_write_at (data buffer : List Byte) (pos size : Nat) :
    slice data pos size <+:
      (fwrite ((fread (resize buffer size) size ⟨data, pos⟩).1.take size) fopen_wb).data := by
  rw [fwrite_fopen_wb]
  simp only [fread, slice]
  generalize hg : List.take size (List.drop pos data) = got
  have hl : got.length ≤ size := by rw [← hg, List.length_take]; omega
  rw [List.take_of_length_le (by
    simp only [List.length_append, List.length_drop, length_resize]
    omega)]
  exact List.prefix_append _ _

/-- When every record still to come has a name that ends within the storage, a
size below `2 ^ 63` and, unless the size is zero, an offset within the
container and below `2 ^ 63`, a run of `unpack_loop` ends successfully; it
writes one file per record, as long as the record states and beginning with
the bytes of its range that exist. -/
theorem unpack_loop_success (base_name table : List Byte) (count : Nat) (hc : count < 2 ^ 32)
    (data : List Byte) (fuel i : Nat) (buffer : List Byte)
    (files : List (List Byte × List Byte)) (hi : i ≤ count) (hf : count - i < fuel)
    (hwf : ∀ j, i ≤ j → j < count →
      (∃ s, stored_name table j = some s) ∧ (entry_at table j).size < 2 ^ 63 ∧
        ((entry_at table j).size = 0 ∨
          ((entry_at table j).offset ≤ data.length ∧ (entry_at table j).offset < 2 ^ 63))) :
    ∃ out, unpack_loop base_name table count data fuel i buffer files
        = some (Outcome.exited Exit.EXIT_SUCCESS, files ++ out) ∧
      out.length = count - i ∧
      ∀ k f, out[k]? = some f →
        f.2.length = (entry_at table (i + k)).size ∧
          slice data (entry_at table (i + k)).offset (entry_at table (i + k)).size <+: f.2 := by
  induction fuel generalizing i buffer files with
  | zero => omega
  | succ fuel ih =>
    rw [unpack_loop_succ]
    by_cases hlt : i < count
    · rw [if_pos hlt]
      have hw : (i + 1) % 2 ^ 32 = i + 1 := Nat.mod_eq_of_lt (by omega)
      rw [hw]
      obtain ⟨⟨s, hs⟩, hsz, hoff⟩ := hwf i (Nat.le_refl _) hlt
      rw [hs]
      simp only
      rw [if_neg (by omega)]
      have hcons : ∀ (buffer' d : List Byte),
          d.length = (entry_at table i).size →
          slice data (entry_at table i).offset (entry_at table i).size <+: d →
          ∃ out, unpack_loop base_name table count data fuel (i + 1) buffer'
              (files ++ [(output_name base_name i s, d)])
              = some (Outcome.exited Exit.EXIT_SUCCESS, files ++ out) ∧
            out.length = count - i ∧
            ∀ k f, out[k]? = some f →
              f.2.length = (entry_at table (i + k)).size ∧
                slice data (entry_at table (i + k)).offset (entry_at table (i + k)).size
                  <+: f.2 := by
        intro buffer' d hd1 hd2
        obtain ⟨out, h1, h2, h3⟩ := ih (i + 1) buffer'
          (files ++ [(output_name base_name i s, d)]) (by omega) (by omega)
          (fun j hj => hwf j (by omega))
        rw [List.append_assoc, List.singleton_append] at h1
        refine ⟨_ :: out, h1, by rw [List.length_cons, h2]; omega, ?_⟩
        intro k f hk
        cases k with
        | zero =>
          simp only [List.getElem?_cons_zero, Option.some.injEq] at hk
          subst hk
          exact ⟨hd1, hd2⟩
        | succ k =>
          simp only [List.getElem?_cons_succ] at hk
          rw [show i + (k + 1) = i + 1 + k by omega]
          exact h3 k f hk
      by_cases hz : (entry_at table i).size = 0
      · rw [if_pos hz]
        exact hcons [] [] (by rw [hz]; rfl) (by rw [hz]; simp [slice])
      · rw [if_neg hz]
        have hseek : fseek_unchecked data.length (entry_at table i).offset
            = some (entry_at table i).offset := by
          rcases hoff with h | h
          · exact absurd h hz
          · unfold fseek_unchecked
            rw [if_pos h]
        rw [hseek]
        simp only
        exact hcons _ _ (length_read_write_at _ _ _ _) (slice_read_write_at _ _ _ _)
    · rw [if_neg hlt]
      exact ⟨[], by simp, by simp; omega, by simp⟩

/-- With a valid magic `unpack` is `unpack_loop` over the table read. -/
theorem unpack_of_magic (fuel : Nat) (outdir base_name container : List Byte)
    (hm : (read_header container).magic = MPK_MAGIC) :
    unpack fuel outdir base_name container
      = (unpack_loop base_name (read_table container) (read_header container).entries container
          fuel 0 [] []).map fun r => (r.1, ⟨[outdir], r.2⟩) := by
  unfold unpack
  rw [if_pos hm]

/-- A run of `unpack` on a container with fewer than `2 ^ 32` entries ends, one
way or another, when the fuel exceeds the number of entries. -/
theorem unpack_ends (fuel : Nat) (outdir base_name container : List Byte)
    (hc : (read_header container).entries < 2 ^ 32)
    (hf : (read_header container).entries < fuel) :
    ∃ r, unpack fuel outdir base_name container = some r := by
  unfold unpack
  by_cases hm : (read_header container).magic = MPK_MAGIC
  · rw [if_pos hm]
    obtain ⟨r, hr⟩ := unpack_loop_total base_name (read_table container)
      (read_header container).entries hc container fuel 0 [] [] (Nat.zero_le _) (by omega)
    exact ⟨_, by rw [hr]; rfl⟩
  · rw [if_neg hm]
    exact ⟨_, rfl⟩

/-- However a run of `unpack` on a container with fewer than `2 ^ 32` entries
ends, file `i` of the run belongs to entry `i` and is named by the base name,
the decimal of `i + 1` and the suffix for the name read at the entry. -/
theorem unpack_names (fuel : Nat) (outdir base_name container : List Byte)
    (hc : (read_header container).entries < 2 ^ 32) (r : Outcome × Effects)
    (hr : unpack fuel outdir base_name container = some r) (i : Nat)
    (f : List Byte × List Byte) (hf : r.2.files[i]? = some f) :
    i < (read_header container).entries ∧
      ∃ s, stored_name (read_table container) i = some s ∧
        f.1 = base_name ++ to_string (i + 1) ++ output_extension s := by
  unfold unpack at hr
  by_cases hm : (read_header container).magic = MPK_MAGIC
  · rw [if_pos hm] at hr
    cases hl : unpack_loop base_name (read_table container) (read_header container).entries
        container fuel 0 [] [] with
    | none => rw [hl] at hr; exact Option.noConfusion hr
    | some q =>
      rw [hl] at hr
      simp only [Option.map_some', Option.some.injEq] at hr
      subst hr
      obtain ⟨out, h1, h2⟩ := unpack_loop_names base_name (read_table container)
        (read_header container).entries hc container fuel 0 [] [] q hl
      rw [List.nil_append] at h1
      simp only at hf
      rw [h1] at hf
      obtain ⟨h3, s, h4, h5⟩ := h2 i f hf
      rw [Nat.zero_add] at h3 h4 h5
      refine ⟨h3, s, h4, ?_⟩
      rw [h5, output_name, Nat.mod_eq_of_lt (by omega)]
  · rw [if_neg hm] at hr
    simp only [Option.some.injEq] at hr
    subst hr
    simp at hf

/-- However a run of `unpack` on a container with fewer than `2 ^ 32` entries
ends, the files it has written have pairwise different names. -/
theorem unpack_nodup (fuel : Nat) (outdir base_name container : List Byte)
    (hc : (read_header container).entries < 2 ^ 32) (r : Outcome × Effects)
    (hr : unpack fuel outdir base_name container = some r) :
    (r.2.files.map Prod.fst).Nodup := by
  rw [List.nodup_iff_getElem?_ne_getElem?]
  intro i j hij hj
  rw [List.length_map] at hj
  have hi : i < r.2.files.length := by omega
  rw [List.getElem?_map, List.getElem?_map, List.getElem?_eq_getElem hi,
    List.getElem?_eq_getElem hj]
  simp only [Option.map_some', ne_eq, Option.some.injEq]
  intro heq
  obtain ⟨h1, s, -, h2⟩ := unpack_names fuel outdir base_name container hc r hr i _
    (List.getElem?_eq_getElem hi)
  obtain ⟨h1', s', -, h2'⟩ := unpack_names fuel outdir base_name container hc r hr j _
    (List.getElem?_eq_getElem hj)
  rw [h2, h2'] at heq
  have := output_name_injective base_name i j s s' (by omega) (by omega) (by
    unfold output_name
    rw [Nat.mod_eq_of_lt (by omega), Nat.mod_eq_of_lt (by omega)]
    exact heq)
  omega

/-- On a container with valid magic and fewer than `2 ^ 32` entries, each with
a name that ends within the storage of the table, a size below `2 ^ 63` and,
unless the size is zero, an offset within the container, `unpack` ends
successfully with one file per entry: file `i` is named for entry `i`, is as
long as the entry states and begins with the bytes of its range that exist. -/
theorem unpack_success (fuel : Nat) (outdir base_name container : List Byte)
    (hm : (read_header container).magic = MPK_MAGIC)
    (hc : (read_header container).entries < 2 ^ 32)
    (hf : (read_header container).entries < fuel)
    (hwf : ∀ i e, (read_entries container)[i]? = some e →
      (∃ s, stored_name (read_table container) i = some s) ∧ e.size < 2 ^ 63 ∧
        (e.size = 0 ∨ (e.offset ≤ container.length ∧ e.offset < 2 ^ 63))) :
    ∃ files, unpack fuel outdir base_name container
        = some (Outcome.exited Exit.EXIT_SUCCESS, ⟨[outdir], files⟩) ∧
      files.length = (read_entries container).length ∧
      ∀ i e, (read_entries container)[i]? = some e →
        ∃ f, files[i]? = some f ∧ f.2.length = e.size ∧
          slice container e.offset e.size <+: f.2 ∧
          ∃ s, stored_name (read_table container) i = some s ∧
            f.1 = base_name ++ to_string (i + 1) ++ output_extension s := by
  have hget : ∀ j, j < (read_header container).entries →
      (read_entries container)[j]? = some (entry_at (read_table container) j) := by
    intro j hj
    rw [read_entries_def, List.getElem?_map, List.getElem?_range hj]
    rfl
  obtain ⟨out, h1, h2, h3⟩ := unpack_loop_success base_name (read_table container)
    (read_header container).entries hc container fuel 0 [] [] (Nat.zero_le _) (by omega)
    (fun j _ hj => hwf j _ (hget j hj))
  rw [List.nil_append] at h1
  rw [Nat.sub_zero] at h2
  have hx : unpack fuel outdir base_name container
      = some (Outcome.exited Exit.EXIT_SUCCESS, ⟨[outdir], out⟩) := by
    rw [unpack_of_magic fuel outdir base_name container hm, h1]
    rfl
  refine ⟨out, hx, by rw [h2, read_entries_def]; simp, ?_⟩
  intro i e he
  obtain ⟨hi, rfl⟩ := read_entries_getElem container i e he
  have hi' : i < out.length := by rw [h2]; exact hi
  have hg := List.getElem?_eq_getElem hi'
  obtain ⟨h4, h5⟩ := h3 i _ hg
  rw [Nat.zero_add] at h4 h5
  obtain ⟨-, s, h6, h7⟩ := unpack_names fuel outdir base_name container hc _ hx i _ hg
  exact ⟨_, hg, h4, h5, s, h6, h7⟩

/-- On the containers `extract` describes, `unpack` is `extract`: when every
entry has a NUL in its file name field, a size below `2 ^ 63` and, unless the
size is zero, an offset within the container, the two runs agree. -/
theorem unpack_eq_extract (fuel : Nat) (outdir base_name container : List Byte)
    (hc : (read_header container).entries < 2 ^ 32)
    (hwf : ∀ e ∈ read_entries container, (0 : Byte) ∈ e.filename.val ∧ e.size < 2 ^ 63 ∧
      (e.size = 0 ∨ (e.offset ≤ container.length ∧ e.offset < 2 ^ 63))) :
    unpack fuel outdir base_name container
      = (extract fuel outdir base_name container).map fun r => (Outcome.exited r.1, r.2) := by
  have hx : extract fuel outdir base_name container
      = CHECK ((read_header container).magic = MPK_MAGIC) ⟨[], []⟩
          ((extract_loop base_name (read_table container) (read_header container).entries fuel 0
            ⟨container, (fread (zeros ((read_header container).entries * sizeof_entry))
              ((read_header container).entries * sizeof_entry)
              (fread (zeros sizeof_header) sizeof_header (fopen_rb container)).2).2.pos⟩
            [] []).map fun files => (Exit.EXIT_SUCCESS, ⟨[outdir], files⟩)) := rfl
  rw [hx]
  unfold unpack CHECK
  by_cases hm : (read_header container).magic = MPK_MAGIC
  · rw [if_pos hm, if_pos hm]
    rw [unpack_loop_eq_extract_loop base_name (read_table container)
      (read_header container).entries hc container fuel 0 _ [] [] (Nat.zero_le _)
      (fun j _ hj => by
        have hmem : entry_at (read_table container) j ∈ read_entries container := by
          rw [read_entries_def]
          exact List.mem_map.mpr ⟨j, List.mem_range.mpr hj, rfl⟩
        obtain ⟨h0, h1, h2⟩ := hwf _ hmem
        exact ⟨stored_name_read_table container j hj h0, h1, h2⟩)]
    rw [Option.map_map, Option.map_map]
    rfl
  · rw [if_neg hm, if_neg hm]
    rfl

/-- On every container of the packer, for fewer than `2 ^ 32` files and stream
positions that fit a `long`, `unpack` is `extract`. -/
theorem unpack_create_eq_extract (dir : List directory_entry) (outdir base_name : List Byte)
    (fuel : Nat) (hN : (list_files dir).length < 2 ^ 32)
    (hpos : ftell (create_payloads dir).2 < 2 ^ 63) :
    unpack fuel outdir base_name (create dir)
      = (extract fuel outdir base_name (create dir)).map
          fun r => (Outcome.exited r.1, r.2) := by
  have hH : sizeof_header ≤
      alignUp (sizeof_header + (list_files dir).length * sizeof_entry) 2048 :=
    le_trans (by omega) (le_alignUp _)
  apply unpack_eq_extract
  · rw [read_header_create]
    simp only
    omega
  · intro e he
    rw [read_entries_create, Nat.mod_eq_of_lt (by omega)] at he
    obtain ⟨p, hp, rfl⟩ := List.mem_map.mp he
    obtain ⟨j, hj⟩ := List.getElem?_of_mem (List.mem_of_mem_take hp)
    obtain ⟨q, hq, rfl⟩ := create_entries_getElem dir j p hj
    have hr := create_payloads_inRange dir hpos j q hq
    rw [norm_of_inRange _ hr]
    have hq' := hq
    rw [create_payloads_eq] at hq' hpos
    simp only [ftell] at hq' hpos
    obtain ⟨-, -, -, hfn, -, -⟩ := fill_init_getElem _ _ _ _ _ hq'
    have hend := offset_add_size_le_end_pos _ _ _ (List.getElem?_mem hq')
    rw [map_snd_init_entries] at hend
    refine ⟨?_, by omega, ?_⟩
    · rw [hfn, init_entry_filename]
      simp
    · by_cases hz : q.1.size = 0
      · left; exact hz
      · right
        have h1 := nonempty_end_le sizeof_header _ _ hH q (List.getElem?_mem hq') (by omega)
        rw [map_snd_init_entries] at h1
        rw [length_create]
        omega

/-- The run of `unpack` on a container whose entries each hold a NUL in the
file name field, a size below `2 ^ 63` and, unless the size is zero, an offset
within the container: file `i` is named from the file name field of entry
`i`. -/
theorem unpack_success_field (fuel : Nat) (outdir base_name container : List Byte)
    (hm : (read_header container).magic = MPK_MAGIC)
    (hc : (read_header container).entries < 2 ^ 32)
    (hf : (read_header container).entries < fuel)
    (hwf : ∀ e ∈ read_entries container, (0 : Byte) ∈ e.filename.val ∧ e.size < 2 ^ 63 ∧
      (e.size = 0 ∨ (e.offset ≤ container.length ∧ e.offset < 2 ^ 63))) :
    ∃ files, unpack fuel outdir base_name container
        = some (Outcome.exited Exit.EXIT_SUCCESS, ⟨[outdir], files⟩) ∧
      files.length = (read_entries container).length ∧
      ∀ i e, (read_entries container)[i]? = some e →
        ∃ data, files[i]? = some
            (base_name ++ to_string (i + 1) ++ output_extension (c_str e.filename.val), data) ∧
          data.length = e.size ∧ slice container e.offset e.size <+: data := by
  have hname : ∀ i e, (read_entries container)[i]? = some e →
      stored_name (read_table container) i = some (c_str e.filename.val) := by
    intro i e he
    obtain ⟨hi, rfl⟩ := read_entries_getElem container i e he
    exact stored_name_read_table container i hi (hwf _ (List.getElem?_mem he)).1
  obtain ⟨files, h1, h2, h3⟩ := unpack_success fuel outdir base_name container hm hc hf
    (fun i e he => ⟨⟨_, hname i e he⟩, (hwf e (List.getElem?_mem he)).2⟩)
  refine ⟨files, h1, h2, ?_⟩
  intro i e he
  obtain ⟨f, h4, h5, h6, s, h7, h8⟩ := h3 i e he
  rw [hname i e he, Option.some.injEq] at h7
  subst h7
  refine ⟨f.2, ?_, h5, h6⟩
  rw [h4, ← h8]

/-! # The claims about the unpacker on any container -/

set_option maxRecDepth 1000000 in
/-- C18 fails as stated.  `unterminated_container` and
`unterminated_container_zero` have a valid magic and entries that all lie
within the file; entry 0 is the same record in both, and the two containers
differ in the compression field of entry 1 only.  The file written for entry 0
is `test1.txt` for the one and `test1.bin` for the other: its name depends on
more than the offset, the size and the file name of the entry. -/
theorem name_reads_next_record :
    (read_header unterminated_container).magic = MPK_MAGIC ∧
    (read_header unterminated_container_zero).magic = MPK_MAGIC ∧
    (∀ e ∈ read_entries unterminated_container,
      e.offset + e.size ≤ unterminated_container.length) ∧
    (∀ e ∈ read_entries unterminated_container_zero,
      e.offset + e.size ≤ unterminated_container_zero.length) ∧
    read_entries unterminated_container = [unterminated_entry, dotted_entry] ∧
    read_entries unterminated_container_zero
      = [unterminated_entry, { dotted_entry with compression := 0 }] ∧
    unpack 3 test_stem test_stem unterminated_container
      = some (Outcome.exited Exit.EXIT_SUCCESS, ⟨[test_stem],
          [([116, 101, 115, 116, 49, 46, 116, 120, 116], []),
           ([116, 101, 115, 116, 50, 46, 116, 120, 116], [])]⟩) ∧
    unpack 3 test_stem test_stem unterminated_container_zero
      = some (Outcome.exited Exit.EXIT_SUCCESS, ⟨[test_stem],
          [([116, 101, 115, 116, 49, 46, 98, 105, 110], []),
           ([116, 101, 115, 116, 50, 46, 116, 120, 116], [])]⟩) := by
  decide

/-- C18, amended.  For every container with valid magic, fewer than `2 ^ 32`
entries and fewer than `2 ^ 63` bytes, whose entries all lie within the file
and each hold a NUL in the file name field, extraction ends successfully and
the file written for the entry at index `i` holds exactly the bytes
`[offset, offset + size)` of the container, `size` of them; its name is made
of the base name, `i + 1` and the extension of the stored file name.  Nothing
is assumed of the fields compression, entry_id and size_decompressed: the file
is what any record with the same offset, size and extension gives. -/
theorem verbatim_extraction (fuel : Nat) (outdir base_name container : List Byte)
    (hm : (read_header container).magic = MPK_MAGIC)
    (hc : (read_header container).entries < 2 ^ 32)
    (hf : (read_header container).entries < fuel)
    (hlen : container.length < 2 ^ 63)
    (hin : ∀ e ∈ read_entries container, e.offset + e.size ≤ container.length)
    (hnul : ∀ e ∈ read_entries container, (0 : Byte) ∈ e.filename.val) :
    ∃ files, unpack fuel outdir base_name container
        = some (Outcome.exited Exit.EXIT_SUCCESS, ⟨[outdir], files⟩) ∧
      files.length = (read_entries container).length ∧
      (∀ i e, (read_entries container)[i]? = some e →
        files[i]? = some
          (base_name ++ to_string (i + 1) ++ output_extension (c_str e.filename.val),
            slice container e.offset e.size) ∧
        (slice container e.offset e.size).length = e.size) ∧
      (∀ i e e', (read_entries container)[i]? = some e →
        e'.offset = e.offset → e'.size = e.size →
        path_extension (c_str e'.filename.val) = path_extension (c_str e.filename.val) →
        files[i]? = some (output_filename base_name i e', slice container e'.offset e'.size)) := by
  obtain ⟨files, h1, h2, h3⟩ :=
    unpack_success_field fuel outdir base_name container hm hc hf
      (fun e he => ⟨hnul e he, by have := hin e he; omega,
        Or.inr ⟨by have := hin e he; omega, by have := hin e he; omega⟩⟩)
  have hmain : ∀ i e, (read_entries container)[i]? = some e →
      files[i]? = some
        (base_name ++ to_string (i + 1) ++ output_extension (c_str e.filename.val),
          slice container e.offset e.size) ∧
      (slice container e.offset e.size).length = e.size := by
    intro i e he
    obtain ⟨data, hd, hl, hp⟩ := h3 i e he
    have hs : (slice container e.offset e.size).length = e.size := by
      have := hin e (List.getElem?_mem he)
      simp only [slice, List.length_take, List.length_drop]
      omega
    have heq : slice container e.offset e.size = data :=
      hp.eq_of_length (by rw [hs, hl])
    exact ⟨by rw [hd, heq], hs⟩
  refine ⟨files, h1, h2, hmain, ?_⟩
  intro i e e' he ho hz hx
  have hi := (read_entries_getElem container i e he).1
  rw [(hmain i e he).1, output_filename_def, Nat.mod_eq_of_lt (by omega), output_extension,
    output_extension, hx, ho, hz]

set_option maxRecDepth 1000000 in
/-- C18, amended, at `small_container`: the three bytes `xyz` at offset 320 go
to `test1.dat`. -/
theorem verbatim_extraction_witness :
    (read_header small_container).magic = MPK_MAGIC ∧
    (read_header small_container).entries < 2 ^ 32 ∧
    (read_header small_container).entries < 2 ∧
    small_container.length < 2 ^ 63 ∧
    (∀ e ∈ read_entries small_container, e.offset + e.size ≤ small_container.length) ∧
    (∀ e ∈ read_entries small_container, (0 : Byte) ∈ e.filename.val) ∧
    (read_entries small_container)[0]? = some small_entry ∧
    slice small_container small_entry.offset small_entry.size = [120, 121, 122] ∧
    ∃ files, unpack 2 test_stem test_stem small_container
        = some (Outcome.exited Exit.EXIT_SUCCESS, ⟨[test_stem], files⟩) ∧
      files.length = (read_entries small_container).length ∧
      (∀ i e, (read_entries small_container)[i]? = some e →
        files[i]? = some
          (test_stem ++ to_string (i + 1) ++ output_extension (c_str e.filename.val),
            slice small_container e.offset e.size) ∧
        (slice small_container e.offset e.size).length = e.size) ∧
      (∀ i e e', (read_entries small_container)[i]? = some e →
        e'.offset = e.offset → e'.size = e.size →
        path_extension (c_str e'.filename.val) = path_extension (c_str e.filename.val) →
        files[i]? = some
          (output_filename test_stem i e', slice small_container e'.offset e'.size)) :=
  ⟨by decide, by decide, by decide, by decide, by decide, by decide, by decide, by decide,
    verbatim_extraction 2 test_stem test_stem small_container (by decide) (by decide)
      (by decide) (by decide) (by decide) (by decide)⟩

/-- C19.  Within one run of the unpacker on a container with fewer than
`2 ^ 32` entries, distinct entry indices yield distinct output file names,
whatever names are read from the table.  For indices `i ≠ j` below
`2 ^ 32 - 1` and any names, the base name followed by the decimal of `i + 1`
and the suffix differs from the one for `j`: the decimal holds no period, and
every suffix, `.bin` or an extension, begins with the only period it holds.
Every file of a run, however the run ends, has the name of this form for its
index, so the names of the files written are pairwise distinct: no output file
of a run overwrites another.  The run ends when the fuel exceeds the number of
entries. -/
theorem output_names_distinct (fuel : Nat) (outdir base_name container : List Byte)
    (hc : (read_header container).entries < 2 ^ 32) :
    (∀ (i j : Nat) (s s' : List Byte), i ≠ j → i + 1 < 2 ^ 32 → j + 1 < 2 ^ 32 →
      base_name ++ to_string (i + 1) ++ output_extension s
        ≠ base_name ++ to_string (j + 1) ++ output_extension s') ∧
    (∀ s, ∃ t, output_extension s = 46 :: t ∧ (46 : Byte) ∉ t) ∧
    (∀ n, (46 : Byte) ∉ to_string n) ∧
    (∀ r, unpack fuel outdir base_name container = some r →
      (∀ i f, r.2.files[i]? = some f → i + 1 < 2 ^ 32 ∧
        ∃ s, stored_name (read_table container) i = some s ∧
          f.1 = base_name ++ to_string (i + 1) ++ output_extension s) ∧
      (r.2.files.map Prod.fst).Nodup) ∧
    ((read_header container).entries < fuel →
      ∃ r, unpack fuel outdir base_name container = some r) := by
  refine ⟨?_, output_extension_spec, fun n h => to_string_ne_dot n 46 h rfl, ?_,
    unpack_ends fuel outdir base_name container hc⟩
  · intro i j s s' hij hi hj h
    apply hij
    apply output_name_injective base_name i j s s' hi hj
    unfold output_name
    rw [Nat.mod_eq_of_lt hi, Nat.mod_eq_of_lt hj]
    exact h
  · intro r hr
    refine ⟨?_, unpack_nodup fuel outdir base_name container hc r hr⟩
    intro i f hfi
    obtain ⟨hi, h⟩ := unpack_names fuel outdir base_name container hc r hr i f hfi
    exact ⟨by omega, h⟩

set_option maxRecDepth 1000000 in
/-- C19 at `unterminated_container`, whose run writes `test1.txt` and
`test2.txt`. -/
theorem output_names_distinct_witness :
    (read_header unterminated_container).entries < 2 ^ 32 ∧
    (read_header unterminated_container).entries < 3 ∧
    (∃ r, unpack 3 test_stem test_stem unterminated_container = some r) ∧
    (∀ r, unpack 3 test_stem test_stem unterminated_container = some r →
      (∀ i f, r.2.files[i]? = some f → i + 1 < 2 ^ 32 ∧
        ∃ s, stored_name (read_table unterminated_container) i = some s ∧
          f.1 = test_stem ++ to_string (i + 1) ++ output_extension s) ∧
      (r.2.files.map Prod.fst).Nodup) :=
  ⟨by decide, by decide,
    (output_names_distinct 3 test_stem test_stem unterminated_container (by decide)).2.2.2.2
      (by decide),
    (output_names_distinct 3 test_stem test_stem unterminated_container (by decide)).2.2.2.1⟩

end mpk
